import Mathlib

/-!
Verification of the ytorrent bencode decoder (src/bencode/{parser,token,object,de}.rs).

The Rust code is shallowly embedded: bytes are `List Nat` (values 0..255,
ASCII codes written as numerals, e.g. 101 = lowercase e, 105 = i, 108 = l,
100 = d, 58 = colon, 45 = minus, 48..57 = digits).  The mutable
`BencodeParser` becomes a value of a structure that every operation threads
explicitly; fallible operations return `Except Error (result × parser)`.
Rust's `Error` carries a formatted message string that embeds the offset; we
embed it structurally as a message tag plus the offset that the `format!`
call interpolates.  Recursive draining of nested structures (Rust uses
recursion through `Drop`) is modelled with an explicit fuel parameter;
every theorem states how much fuel suffices.
-/

namespace YBencode

/-- ASCII digit test (48..57), mirroring Rust `char::is_ascii_digit`. -/
def is_digit (c : Nat) : Bool := decide (48 ≤ c ∧ c ≤ 57)

/-- Decimal value of an all-digit span, mirroring `str::parse` on digit strings. -/
def digits_val (s : List Nat) : Nat := s.foldl (fun acc c => acc * 10 + (c - 48)) 0

/-- Token type from token.rs: `List`, `Dict`, `String(&[u8])`, `Num(&str)`, `End`.
The `Num` payload is the raw digit span as bytes (Rust stores it as `&str`). -/
inductive Token where
  | List
  | Dict
  | String (bytes : List Nat)
  | Num (s : List Nat)
  | End
deriving DecidableEq

/-- Tags for the messages that the Rust code formats into its error strings.
Each constructor corresponds to one `format!` site in parser.rs / object.rs /
de.rs; the offset interpolated at that site is carried separately in `Error`. -/
inductive ErrTag where
  | eofParseToken        -- "unexpected EOF at {} when parse token"
  | invalidToken         -- "invalid token {} at {}"
  | eofInt               -- take_int: "unexpected EOF at {}"
  | expectSignOrDigit    -- take_int Start: "expect '-' or digit but get {} , at {}"
  | expectTerminator     -- take_int Zero: "expect {} but get {}, at {}"
  | exceptSign           -- take_int Sign: "except sign but get {}, at {}"
  | expectDigit          -- take_int Digits: "expect digit bug get {}, at {}"
  | invalidLength        -- take_bytes: "invalid integer at {}"
  | eofReadBytes         -- take_bytes: "unexpected EOF at {} when read bytes"
  | unexpectedEndOfList  -- next_pair: "unexpected end of list at {}"
  | expectDict           -- expect_dict_begin
  | expectList           -- expect_list_begin
  | expectEnd            -- expect_end
  | eofAny               -- deserialize_any on End token
  | expectInteger        -- deserialize_integer!: wrong object shape
  | eofInteger           -- deserialize_integer!: EOF
  | invalidInteger       -- deserialize_integer!: numeric parse failure
  | expectBytes          -- deserialize_bytes!: wrong object shape
  | eofBytes             -- deserialize_bytes!: EOF
  | expectEnumShape      -- deserialize_enum: "expect dict/bytes for enum but get {} at {}"
  | badVariant           -- unknown variant name or invalid UTF-8 variant bytes
  | expectIdentifier     -- deserialize_identifier on a non-string object
  | eofIdentifier        -- deserialize_identifier: EOF
  | fuelExhausted        -- artifact of the fuel-based embedding (no Rust counterpart)
deriving DecidableEq

/-- Error type from bencode/mod.rs.  `BencodeDecode` and `SerdeCustom` carry a
formatted string in Rust; here the message is a tag and the interpolated
offset is exposed as a field. -/
inductive Error where
  | BencodeDecode (tag : ErrTag) (offset : Nat)
  | SerdeCustom (tag : ErrTag) (offset : Nat)
deriving DecidableEq

instance {ε α : Type} [DecidableEq ε] [DecidableEq α] : DecidableEq (Except ε α) :=
  fun a b =>
    match a, b with
    | .error e₁, .error e₂ =>
      if h : e₁ = e₂ then isTrue (by rw [h]) else isFalse (fun hc => by cases hc; exact h rfl)
    | .ok x, .ok y =>
      if h : x = y then isTrue (by rw [h]) else isFalse (fun hc => by cases hc; exact h rfl)
    | .error _, .ok _ => isFalse (fun hc => by cases hc)
    | .ok _, .error _ => isFalse (fun hc => by cases hc)

/-- The parser state from parser.rs: backing buffer, byte offset, and the
one-token peek cache (`peeked_token`; the `Rc` wrapper is irrelevant here). -/
structure BencodeParser where
  data : List Nat
  offset : Nat
  peeked_token : Option Token
deriving DecidableEq

/-- `BencodeParser::new`. -/
def BencodeParser.new (data : List Nat) : BencodeParser :=
  { data := data, offset := 0, peeked_token := none }

/-- `BencodeParser::take_byte`: move forward one byte. -/
def BencodeParser.take_byte (p : BencodeParser) : Option (Nat × BencodeParser) :=
  match p.data[p.offset]? with
  | some b => some (b, { p with offset := p.offset + 1 })
  | none => none

/-- `BencodeParser::take_chunk`: move forward `count` bytes.  Rust's
`checked_add` guards usize overflow, which `Nat` cannot exhibit. -/
def BencodeParser.take_chunk (count : Nat) (p : BencodeParser) :
    Option (List Nat × BencodeParser) :=
  if p.offset + count ≤ p.data.length then
    some ((p.data.drop p.offset).take count, { p with offset := p.offset + count })
  else none

/-- The four-state scanner grammar from `take_int`. -/
inductive State where
  | Start
  | Sign
  | Zero
  | Digits
deriving DecidableEq

/-- The `while` loop of `BencodeParser::take_int`: walk `rest` (the buffer
from position `cur`) and return the position of the expected terminator, or
the error raised at the offending position.  `rest` is kept in sync with
`cur` by every caller (`rest = data.drop cur`). -/
def take_int_go (term : Nat) : State → Nat → List Nat → Except Error Nat
  | _, cur, [] => .error (.BencodeDecode .eofInt cur)
  | .Start, cur, c :: rest =>
    if c = 45 then take_int_go term .Sign (cur + 1) rest
    else if c = 48 then take_int_go term .Zero (cur + 1) rest
    else if 49 ≤ c ∧ c ≤ 57 then take_int_go term .Digits (cur + 1) rest
    else .error (.BencodeDecode .expectSignOrDigit cur)
  | .Zero, cur, c :: _ =>
    if c = term then .ok cur
    else .error (.BencodeDecode .expectTerminator cur)
  | .Sign, cur, c :: rest =>
    if 49 ≤ c ∧ c ≤ 57 then take_int_go term .Digits (cur + 1) rest
    else .error (.BencodeDecode .exceptSign cur)
  | .Digits, cur, c :: rest =>
    if 48 ≤ c ∧ c ≤ 57 then take_int_go term .Digits (cur + 1) rest
    else if c = term then .ok cur
    else .error (.BencodeDecode .expectDigit cur)

/-- `BencodeParser::take_int`: scan an integer span up to `term`, return the
span and advance one past the terminator. -/
def BencodeParser.take_int (p : BencodeParser) (term : Nat) :
    Except Error (List Nat × BencodeParser) :=
  match take_int_go term .Start p.offset (p.data.drop p.offset) with
  | .error e => .error e
  | .ok curPos =>
    .ok ((p.data.drop p.offset).take (curPos - p.offset), { p with offset := curPos + 1 })

/-- Rust `span.parse::<usize>()`: succeeds exactly on nonempty all-digit spans
(unbounded here; usize overflow is not representable over `Nat`). -/
def parse_usize (s : List Nat) : Option Nat :=
  if s ≠ [] ∧ s.all is_digit then some (digits_val s) else none

/-- `BencodeParser::take_bytes`: length span, colon, then that many raw bytes. -/
def BencodeParser.take_bytes (p : BencodeParser) : Except Error (List Nat × BencodeParser) :=
  let cur := p.offset
  match p.take_int 58 with
  | .error e => .error e
  | .ok (span, p₁) =>
    match parse_usize span with
    | none => .error (.BencodeDecode .invalidLength cur)
    | some len =>
      match p₁.take_chunk len with
      | some (chunk, p₂) => .ok (chunk, p₂)
      | none => .error (.BencodeDecode .eofReadBytes p₁.offset)

/-- `BencodeParser::next_raw_token`: scan one fresh token from the buffer. -/
def BencodeParser.next_raw_token (p : BencodeParser) : Except Error (Token × BencodeParser) :=
  match p.take_byte with
  | none => .error (.BencodeDecode .eofParseToken p.offset)
  | some (c, p₁) =>
    if c = 101 then .ok (.End, p₁)
    else if c = 108 then .ok (.List, p₁)
    else if c = 100 then .ok (.Dict, p₁)
    else if c = 105 then
      match p₁.take_int 101 with
      | .error e => .error e
      | .ok (s, p₂) => .ok (.Num s, p₂)
    else if 48 ≤ c ∧ c ≤ 57 then
      match BencodeParser.take_bytes { p₁ with offset := p₁.offset - 1 } with
      | .error e => .error e
      | .ok (b, p₂) => .ok (.String b, p₂)
    else .error (.BencodeDecode .invalidToken p₁.offset)

/-- `BencodeParser::peek_token`: return the cached token, or scan one and cache it. -/
def BencodeParser.peek_token (p : BencodeParser) : Except Error (Token × BencodeParser) :=
  match p.peeked_token with
  | some t => .ok (t, p)
  | none =>
    match p.next_raw_token with
    | .error e => .error e
    | .ok (t, p₁) => .ok (t, { p₁ with peeked_token := some t })

/-- `BencodeParser::next_token`: consume the cached token if present, else scan. -/
def BencodeParser.next_token (p : BencodeParser) : Except Error (Token × BencodeParser) :=
  match p.peeked_token with
  | some t => .ok (t, { p with peeked_token := none })
  | none => p.next_raw_token

/-- `BencodeParser::expect_dict_begin`. -/
def BencodeParser.expect_dict_begin (p : BencodeParser) : Except Error BencodeParser :=
  match p.next_token with
  | .error e => .error e
  | .ok (.Dict, p₁) => .ok p₁
  | .ok (.List, _) => .error (.SerdeCustom .expectDict p.offset)
  | .ok (.String _, _) => .error (.SerdeCustom .expectDict p.offset)
  | .ok (.Num _, _) => .error (.SerdeCustom .expectDict p.offset)
  | .ok (.End, _) => .error (.SerdeCustom .expectDict p.offset)

/-- `BencodeParser::expect_list_begin`. -/
def BencodeParser.expect_list_begin (p : BencodeParser) : Except Error BencodeParser :=
  match p.next_token with
  | .error e => .error e
  | .ok (.List, p₁) => .ok p₁
  | .ok (.Dict, _) => .error (.SerdeCustom .expectList p.offset)
  | .ok (.String _, _) => .error (.SerdeCustom .expectList p.offset)
  | .ok (.Num _, _) => .error (.SerdeCustom .expectList p.offset)
  | .ok (.End, _) => .error (.SerdeCustom .expectList p.offset)

/-- `BencodeParser::expect_end`. -/
def BencodeParser.expect_end (p : BencodeParser) : Except Error BencodeParser :=
  match p.next_token with
  | .error e => .error e
  | .ok (.End, p₁) => .ok p₁
  | .ok (.Dict, _) => .error (.SerdeCustom .expectEnd p.offset)
  | .ok (.List, _) => .error (.SerdeCustom .expectEnd p.offset)
  | .ok (.String _, _) => .error (.SerdeCustom .expectEnd p.offset)
  | .ok (.Num _, _) => .error (.SerdeCustom .expectEnd p.offset)

/-- `BencodeParser::expect_empty_list`: expect the two tokens `l` `e`. -/
def BencodeParser.expect_empty_list (p : BencodeParser) : Except Error BencodeParser :=
  match p.expect_list_begin with
  | .error e => .error e
  | .ok p₁ => p₁.expect_end

/-- Object from object.rs.  `Object::List`/`Object::Dict` wrap a nested
decoder borrowing the parser; here the constructor records the decoder's
`start_point` (the parser state travels alongside in each operation). -/
inductive Object where
  | Int (s : List Nat)
  | Bytes (b : List Nat)
  | List (start_point : Nat)
  | Dict (start_point : Nat)
deriving DecidableEq

/-- `BencodeParser::parse`: pull one token and shape it into an `Object`
(`None` on an `End` token).  A `List`/`Dict` token creates a decoder whose
`start_point` is `offset - 1` (`ListDecoder::new` / `DictDecoder::new`). -/
def BencodeParser.parse (p : BencodeParser) : Except Error (Option Object × BencodeParser) :=
  match p.next_token with
  | .error e => .error e
  | .ok (.List, p₁) => .ok (some (.List (p₁.offset - 1)), p₁)
  | .ok (.Dict, p₁) => .ok (some (.Dict (p₁.offset - 1)), p₁)
  | .ok (.Num s, p₁) => .ok (some (.Int s), p₁)
  | .ok (.String b, p₁) => .ok (some (.Bytes b), p₁)
  | .ok (.End, p₁) => .ok (none, p₁)

/-- The draining loops of `ListDecoder::consume_all` (flag `true`) and
`DictDecoder::consume_all` (flag `false`), starting from an unfinished
cursor.  Each yielded item/pair value is immediately dropped, and dropping
a nested `Object::List`/`Object::Dict` recursively drains it through its
terminator (the `Drop` impls).  The fuel argument only bounds the recursion
depth of this embedding; Rust's `Drop`-recursion has no such parameter.
Rust suppresses errors raised inside `Drop` (`.ok()`); this embedding
propagates them — the difference is observable only on malformed input that
no theorem below exercises (all state the success case). -/
def drain_struct : Nat → Bool → BencodeParser → Except Error BencodeParser
  | 0, _, _ => .error (.BencodeDecode .fuelExhausted 0)
  | fuel + 1, true, p =>
    match p.parse with
    | .error e => .error e
    | .ok (none, p₁) => .ok p₁
    | .ok (some (.Int _), p₁) => drain_struct fuel true p₁
    | .ok (some (.Bytes _), p₁) => drain_struct fuel true p₁
    | .ok (some (.List _), p₁) =>
      match drain_struct fuel true p₁ with
      | .error e => .error e
      | .ok p₂ => drain_struct fuel true p₂
    | .ok (some (.Dict _), p₁) =>
      match drain_struct fuel false p₁ with
      | .error e => .error e
      | .ok p₂ => drain_struct fuel true p₂
  | fuel + 1, false, p =>
    match p.parse with
    | .error e => .error e
    | .ok (none, p₁) => .ok p₁
    | .ok (some (.Bytes _), p₁) =>
      match p₁.parse with
      | .error e => .error e
      | .ok (none, _) => .error (.BencodeDecode .unexpectedEndOfList p₁.offset)
      | .ok (some (.Int _), p₂) => drain_struct fuel false p₂
      | .ok (some (.Bytes _), p₂) => drain_struct fuel false p₂
      | .ok (some (.List _), p₂) =>
        match drain_struct fuel true p₂ with
        | .error e => .error e
        | .ok p₃ => drain_struct fuel false p₃
      | .ok (some (.Dict _), p₂) =>
        match drain_struct fuel false p₂ with
        | .error e => .error e
        | .ok p₃ => drain_struct fuel false p₃
    | .ok (some (.Int _), p₁) => .ok p₁
    | .ok (some (.List _), p₁) => drain_struct fuel true p₁
    | .ok (some (.Dict _), p₁) => drain_struct fuel false p₁

/-- Dropping one pulled `Object` (what `Object::unwrap_bytes` / the loop body
of `consume_all` does implicitly): scalars are no-ops, a nested List/Dict
cursor drains itself through its `End` on drop. -/
def skip_object (fuel : Nat) (h : Object) (p : BencodeParser) : Except Error BencodeParser :=
  match h with
  | .Int _ => .ok p
  | .Bytes _ => .ok p
  | .List _ => drain_struct fuel true p
  | .Dict _ => drain_struct fuel false p

/-- `ListDecoder` from object.rs: shares the parser, records where its `l`
byte began, and remembers whether its `End` has been observed. -/
structure ListDecoder where
  parser : BencodeParser
  finished : Bool
  start_point : Nat
deriving DecidableEq

/-- `ListDecoder::new`: the opening token was just consumed, so the structure
started at `offset - 1`. -/
def ListDecoder.new (p : BencodeParser) : ListDecoder :=
  { parser := p, finished := false, start_point := p.offset - 1 }

/-- `ListDecoder::next_object`. -/
def ListDecoder.next_object (d : ListDecoder) :
    Except Error (Option Object × ListDecoder) :=
  if d.finished then .ok (none, d)
  else
    match d.parser.parse with
    | .error e => .error e
    | .ok (none, p₁) => .ok (none, { d with parser := p₁, finished := true })
    | .ok (some h, p₁) => .ok (some h, { d with parser := p₁ })

/-- `ListDecoder::consume_all`: pull and drop items until the terminator.
Also the body of `Drop for ListDecoder` (which additionally discards the
error; all theorems below are about the success case, where the two agree). -/
def ListDecoder.consume_all (fuel : Nat) (d : ListDecoder) : Except Error ListDecoder :=
  if d.finished then .ok d
  else
    match drain_struct fuel true d.parser with
    | .error e => .error e
    | .ok p₁ => .ok { d with parser := p₁, finished := true }

/-- `TryFrom<ListDecoder> for &[u8]`: force full consumption, then slice the
backing buffer from `start_point` to the current offset. -/
def ListDecoder.try_into_bytes (fuel : Nat) (d : ListDecoder) : Except Error (List Nat) :=
  match d.consume_all fuel with
  | .error e => .error e
  | .ok d₁ => .ok ((d₁.parser.data.drop d₁.start_point).take (d₁.parser.offset - d₁.start_point))

/-- `DictDecoder` from object.rs. -/
structure DictDecoder where
  parser : BencodeParser
  finished : Bool
  start_point : Nat
deriving DecidableEq

/-- `DictDecoder::new`. -/
def DictDecoder.new (p : BencodeParser) : DictDecoder :=
  { parser := p, finished := false, start_point := p.offset - 1 }

/-- `DictDecoder::next_pair`.  The key-position object goes through
`Object::unwrap_bytes`: a `Bytes` object becomes the key, while any other
object is dropped (a structural one drains itself — the fuel is only for
that drop) and the cursor is silently marked finished with `Ok(None)`.
A key must be followed by a value; an `End` there is a decode error. -/
def DictDecoder.next_pair (fuel : Nat) (d : DictDecoder) :
    Except Error (Option (List Nat × Object) × DictDecoder) :=
  if d.finished then .ok (none, d)
  else
    match d.parser.parse with
    | .error e => .error e
    | .ok (none, p₁) => .ok (none, { d with parser := p₁, finished := true })
    | .ok (some (.Bytes k), p₁) =>
      match p₁.parse with
      | .error e => .error e
      | .ok (none, _) => .error (.BencodeDecode .unexpectedEndOfList p₁.offset)
      | .ok (some v, p₂) => .ok (some (k, v), { d with parser := p₂ })
    | .ok (some h, p₁) =>
      match skip_object fuel h p₁ with
      | .error e => .error e
      | .ok p₂ => .ok (none, { d with parser := p₂, finished := true })

/-- `DictDecoder::consume_all` (and the body of `Drop for DictDecoder`). -/
def DictDecoder.consume_all (fuel : Nat) (d : DictDecoder) : Except Error DictDecoder :=
  if d.finished then .ok d
  else
    match drain_struct fuel false d.parser with
    | .error e => .error e
    | .ok p₁ => .ok { d with parser := p₁, finished := true }

/-- `TryFrom<DictDecoder> for &[u8]`: force full consumption, then slice. -/
def DictDecoder.try_into_bytes (fuel : Nat) (d : DictDecoder) : Except Error (List Nat) :=
  match d.consume_all fuel with
  | .error e => .error e
  | .ok d₁ => .ok ((d₁.parser.data.drop d₁.start_point).take (d₁.parser.offset - d₁.start_point))

end YBencode

namespace YBencode

/-! ## The wire grammar: integer spans and well-formed encodings -/

/-- Matches `0 | [1-9][0-9]*` (the unsigned integer grammar, no leading zero). -/
def is_uint_span : List Nat → Bool
  | [] => false
  | [c] => is_digit c
  | c :: rest => decide (49 ≤ c ∧ c ≤ 57) && rest.all is_digit

/-- After a leading minus: `[1-9][0-9]*` (so no literal `-0`). -/
def is_neg_tail : List Nat → Bool
  | [] => false
  | c :: rest => decide (49 ≤ c ∧ c ≤ 57) && rest.all is_digit

/-- Matches `-?(0|[1-9][0-9]*)`: the spec grammar for integer bodies. -/
def is_int_span (s : List Nat) : Bool :=
  match s with
  | [] => false
  | c :: rest => if c = 45 then is_neg_tail rest else is_uint_span (c :: rest)

/-- Grammar sorts for well-formed byte ranges: a single value, the item
region of a list (everything between `l` and `e`), or the pair region of a
dict (everything between `d` and `e`). -/
inductive Kind where
  | val
  | items
  | pairs
deriving DecidableEq

/-- Well-formed encoded byte ranges, following the wire grammar in the spec:
`value := integer | bytestring | list | dict`, `list := l value* e`,
`dict := d (bytestring value)* e`. -/
inductive WF : Kind → List Nat → Prop where
  | int (span : List Nat) (h : is_int_span span = true) :
      WF .val (105 :: span ++ [101])
  | str (span b : List Nat) (h : is_uint_span span = true)
      (hlen : digits_val span = b.length) :
      WF .val (span ++ 58 :: b)
  | list (s : List Nat) (h : WF .items s) :
      WF .val (108 :: s ++ [101])
  | dict (s : List Nat) (h : WF .pairs s) :
      WF .val (100 :: s ++ [101])
  | items_nil : WF .items []
  | items_cons (v s : List Nat) (hv : WF .val v) (hs : WF .items s) :
      WF .items (v ++ s)
  | pairs_nil : WF .pairs []
  | pairs_cons (span b v s : List Nat) (hspan : is_uint_span span = true)
      (hlen : digits_val span = b.length) (hv : WF .val v) (hs : WF .pairs s) :
      WF .pairs ((span ++ 58 :: b) ++ v ++ s)

/-! ## Low-level list lemmas -/

lemma drop_cons_getElem {D : List Nat} {n c : Nat} {r : List Nat}
    (h : D.drop n = c :: r) : D[n]? = some c := by
  have h0 := List.getElem?_drop D n 0
  rw [h] at h0
  simpa using h0.symm

lemma drop_cons_succ {D : List Nat} {n c : Nat} {r : List Nat}
    (h : D.drop n = c :: r) : D.drop (n + 1) = r := by
  have : (D.drop n).drop 1 = r := by rw [h]; rfl
  rwa [List.drop_drop] at this

lemma drop_append_right {D s r : List Nat} {n : Nat}
    (h : D.drop n = s ++ r) : D.drop (n + s.length) = r := by
  have : (D.drop n).drop s.length = r := by rw [h]; exact List.drop_left s r
  rwa [List.drop_drop] at this

lemma drop_lt_length {D : List Nat} {n c : Nat} {r : List Nat}
    (h : D.drop n = c :: r) : n < D.length := by
  by_contra hle
  rw [List.drop_eq_nil_iff.mpr (by omega)] at h
  exact List.noConfusion h

lemma drop_length_le {D s r : List Nat} {n : Nat}
    (h : D.drop n = s ++ r) (hn : n ≤ D.length) : n + s.length ≤ D.length := by
  have hlen : (D.drop n).length = D.length - n := List.length_drop n D
  rw [h] at hlen
  simp [List.length_append] at hlen
  omega

end YBencode

namespace YBencode

/-! ## Characterization of the integer scanner -/

lemma uint_span_digits {s : List Nat} (h : is_uint_span s = true) :
    s ≠ [] ∧ s.all is_digit = true := by
  match s with
  | [] => simp [is_uint_span] at h
  | [c] =>
    simp only [is_uint_span] at h
    exact ⟨by simp, by simp [List.all_cons, h]⟩
  | c :: d :: rest =>
    simp only [is_uint_span, Bool.and_eq_true, decide_eq_true_eq] at h
    refine ⟨by simp, ?_⟩
    simp only [List.all_cons, Bool.and_eq_true]
    exact ⟨by simp [is_digit]; omega, by simpa [List.all_cons] using h.2⟩


lemma take_int_go_digits_complete {term : Nat} (hterm : is_digit term = false) :
    ∀ (ds : List Nat) (cur : Nat) (r : List Nat), ds.all is_digit = true →
      take_int_go term .Digits cur (ds ++ term :: r) = .ok (cur + ds.length) := by
  intro ds
  induction ds with
  | nil =>
    intro cur r _
    have ht : ¬(48 ≤ term ∧ term ≤ 57) := by simp [is_digit] at hterm; omega
    simp [take_int_go, ht]
  | cons d ds ih =>
    intro cur r hall
    simp only [List.all_cons, Bool.and_eq_true] at hall
    have hd : 48 ≤ d ∧ d ≤ 57 := by simpa [is_digit] using hall.1
    have ihh := ih (cur + 1) r hall.2
    simp only [List.cons_append, take_int_go, List.append_eq]
    rw [if_pos hd]
    rw [ihh]
    simp only [List.length_cons]
    congr 1
    omega

lemma take_int_go_complete {term : Nat} {span : List Nat} (hspan : is_int_span span = true)
    (hterm : is_digit term = false) (cur : Nat) (r : List Nat) :
    take_int_go term .Start cur (span ++ term :: r) = .ok (cur + span.length) := by
  have ht : ¬(48 ≤ term ∧ term ≤ 57) := by simp [is_digit] at hterm; omega
  match span with
  | [] => simp [is_int_span] at hspan
  | c :: rest =>
    simp only [is_int_span] at hspan
    by_cases hc : c = 45
    · rw [if_pos hc] at hspan
      match rest with
      | [] => simp [is_neg_tail] at hspan
      | d :: ds =>
        simp only [is_neg_tail, Bool.and_eq_true, decide_eq_true_eq] at hspan
        have hrun := take_int_go_digits_complete hterm ds (cur + 1 + 1) r hspan.2
        simp only [List.cons_append, take_int_go, List.append_eq]
        rw [if_pos hc, if_pos hspan.1, hrun]
        simp only [List.length_cons]
        congr 1
        omega
    · rw [if_neg hc] at hspan
      match rest with
      | [] =>
        have hd : 48 ≤ c ∧ c ≤ 57 := by simpa [is_uint_span, is_digit] using hspan
        by_cases h48 : c = 48
        · simp only [List.cons_append, List.nil_append, take_int_go, List.append_eq]
          rw [if_neg hc, if_pos h48]
          simp [take_int_go]
        · simp only [List.cons_append, List.nil_append, take_int_go, List.append_eq]
          rw [if_neg hc, if_neg h48, if_pos (by omega : 49 ≤ c ∧ c ≤ 57), if_neg ht]
          simp
      | d :: ds =>
        simp only [is_uint_span, Bool.and_eq_true, decide_eq_true_eq] at hspan
        have hall : (d :: ds).all is_digit = true := hspan.2
        simp only [List.all_cons, Bool.and_eq_true] at hall
        have hd : 48 ≤ d ∧ d ≤ 57 := by
          have := hall.1
          simp [is_digit] at this
          omega
        have hrun := take_int_go_digits_complete hterm ds (cur + 1 + 1) r hall.2
        simp only [List.cons_append, take_int_go, List.append_eq]
        rw [if_neg hc, if_neg (by omega : ¬c = 48), if_pos hspan.1, if_pos hd, hrun]
        simp only [List.length_cons]
        congr 1
        omega

lemma take_int_go_digits_sound {term : Nat} :
    ∀ (l : List Nat) (cur e : Nat), take_int_go term .Digits cur l = .ok e →
      ∃ ds r, l = ds ++ term :: r ∧ ds.all is_digit = true ∧ e = cur + ds.length := by
  intro l
  induction l with
  | nil => intro cur e h; simp [take_int_go] at h
  | cons c rest ih =>
    intro cur e h
    simp only [take_int_go] at h
    by_cases hd : 48 ≤ c ∧ c ≤ 57
    · rw [if_pos hd] at h
      obtain ⟨ds, r, hrest, hall, he⟩ := ih (cur + 1) e h
      refine ⟨c :: ds, r, by simp [hrest], ?_, ?_⟩
      · simp only [List.all_cons, Bool.and_eq_true]
        exact ⟨by simp [is_digit]; omega, hall⟩
      · simp only [List.length_cons]; omega
    · rw [if_neg hd] at h
      by_cases ht : c = term
      · rw [if_pos ht] at h
        cases h
        exact ⟨[], rest, by simp [ht], by simp, by simp⟩
      · rw [if_neg ht] at h
        cases h

lemma take_int_go_start_sound {term : Nat} {l : List Nat} {cur e : Nat}
    (h : take_int_go term .Start cur l = .ok e) :
    ∃ span r, l = span ++ term :: r ∧ is_int_span span = true ∧ e = cur + span.length := by
  match l with
  | [] => simp [take_int_go] at h
  | c :: rest =>
    simp only [take_int_go] at h
    by_cases hc : c = 45
    · rw [if_pos hc] at h
      match rest with
      | [] => simp [take_int_go] at h
      | d :: ds =>
        simp only [take_int_go] at h
        by_cases hd : 49 ≤ d ∧ d ≤ 57
        · rw [if_pos hd] at h
          obtain ⟨ds', r, hrest, hall, he⟩ := take_int_go_digits_sound ds (cur + 1 + 1) e h
          refine ⟨c :: d :: ds', r, by simp [hrest], ?_, ?_⟩
          · simp only [is_int_span, is_neg_tail, if_pos hc, Bool.and_eq_true,
              decide_eq_true_eq]
            exact ⟨hd, hall⟩
          · simp only [List.length_cons]; omega
        · rw [if_neg hd] at h; cases h
    · rw [if_neg hc] at h
      by_cases h48 : c = 48
      · rw [if_pos h48] at h
        match rest with
        | [] => simp [take_int_go] at h
        | d :: ds =>
          simp only [take_int_go] at h
          by_cases ht : d = term
          · rw [if_pos ht] at h
            cases h
            refine ⟨[c], ds, by simp [ht], ?_, by simp⟩
            simp [is_int_span, if_neg hc, is_uint_span, is_digit, h48]
          · rw [if_neg ht] at h; cases h
      · by_cases hd : 49 ≤ c ∧ c ≤ 57
        · rw [if_neg h48, if_pos hd] at h
          obtain ⟨ds', r, hrest, hall, he⟩ := take_int_go_digits_sound rest (cur + 1) e h
          refine ⟨c :: ds', r, by simp [hrest], ?_, ?_⟩
          · simp only [is_int_span, if_neg hc]
            match ds' with
            | [] => simp [is_uint_span, is_digit]; omega
            | d :: ds'' =>
              simp only [List.all_cons, Bool.and_eq_true] at hall
              simp only [is_uint_span, Bool.and_eq_true, decide_eq_true_eq]
              refine ⟨hd, ?_⟩
              simp only [List.all_cons, Bool.and_eq_true]
              exact ⟨hall.1, hall.2⟩
          · simp only [List.length_cons]; omega
        · rw [if_neg h48, if_neg hd] at h; cases h

/-- Completeness form: a grammatical span followed by a non-digit terminator
is scanned exactly, returning the span and stopping one past the terminator. -/
lemma take_int_at {D : List Nat} {n : Nat} {k : Option Token} {term : Nat}
    {span r : List Nat} (hdrop : D.drop n = span ++ term :: r)
    (hspan : is_int_span span = true) (hterm : is_digit term = false) :
    BencodeParser.take_int ⟨D, n, k⟩ term =
      .ok (span, ⟨D, n + span.length + 1, k⟩) := by
  simp only [BencodeParser.take_int, hdrop, take_int_go_complete hspan hterm]
  rw [Nat.add_sub_cancel_left]
  rw [List.take_left]

/-- Soundness form: whatever `take_int` accepts is a grammatical span sitting
at the scan position, followed by the terminator. -/
lemma take_int_sound {D : List Nat} {n : Nat} {pk : Option Token} {term : Nat}
    {span : List Nat} {p₂ : BencodeParser}
    (h : BencodeParser.take_int ⟨D, n, pk⟩ term = .ok (span, p₂)) :
    ∃ r, D.drop n = span ++ term :: r ∧ is_int_span span = true ∧
      p₂ = ⟨D, n + span.length + 1, pk⟩ := by
  simp only [BencodeParser.take_int] at h
  cases hgo : take_int_go term .Start n (D.drop n) with
  | error e => rw [hgo] at h; cases h
  | ok curPos =>
    rw [hgo] at h
    obtain ⟨span', r, hdrop, hspan, he⟩ := take_int_go_start_sound hgo
    simp only [Except.ok.injEq, Prod.mk.injEq] at h
    obtain ⟨hsp, hp⟩ := h
    have htake : (D.drop n).take (curPos - n) = span' := by
      rw [hdrop, he, Nat.add_sub_cancel_left, List.take_left]
    rw [htake] at hsp
    subst hsp
    exact ⟨r, hdrop, hspan, by rw [← hp, he]⟩

/-! ## Token-shape lemmas -/

lemma drop_ne_nil_lt {D : List Nat} {n : Nat} (h : D.drop n ≠ []) : n < D.length := by
  by_contra hle
  exact h (List.drop_eq_nil_iff.mpr (by omega))

lemma take_byte_at {D : List Nat} {n c : Nat} {r : List Nat} {pk : Option Token}
    (h : D.drop n = c :: r) :
    BencodeParser.take_byte ⟨D, n, pk⟩ = some (c, ⟨D, n + 1, pk⟩) := by
  simp [BencodeParser.take_byte, drop_cons_getElem h]

lemma take_chunk_at {D chunk r : List Nat} {n : Nat} {k : Option Token}
    (h : D.drop n = chunk ++ r) (hle : n + chunk.length ≤ D.length) :
    BencodeParser.take_chunk chunk.length ⟨D, n, k⟩ =
      some (chunk, ⟨D, n + chunk.length, k⟩) := by
  simp only [BencodeParser.take_chunk]
  rw [if_pos hle, h, List.take_left]

lemma is_int_span_of_uint {s : List Nat} (h : is_uint_span s = true) : is_int_span s = true := by
  match s with
  | [] => simp [is_uint_span] at h
  | c :: rest =>
    have hc : 48 ≤ c := by
      match rest with
      | [] => simp only [is_uint_span, is_digit, decide_eq_true_eq] at h; omega
      | d :: ds =>
        simp only [is_uint_span, Bool.and_eq_true, decide_eq_true_eq] at h; omega
    simp only [is_int_span]
    rw [if_neg (by omega : ¬c = 45)]
    exact h

lemma take_bytes_at {D span b r : List Nat} {n : Nat} {k : Option Token}
    (hdrop : D.drop n = span ++ 58 :: b ++ r) (hspan : is_uint_span span = true)
    (hlen : digits_val span = b.length) :
    BencodeParser.take_bytes ⟨D, n, k⟩ =
      .ok (b, ⟨D, n + span.length + 1 + b.length, k⟩) := by
  have hdrop₁ : D.drop n = span ++ 58 :: (b ++ r) := by
    rw [hdrop]; simp
  have hint := take_int_at (k := k) hdrop₁ (is_int_span_of_uint hspan) (by decide)
  have hn : n < D.length := drop_ne_nil_lt (by rw [hdrop₁]; simp)
  have hdrop₂ : D.drop n = ((span ++ [58]) ++ b) ++ r := by rw [hdrop]; simp
  have hle : n + ((span ++ [58]) ++ b).length ≤ D.length :=
    drop_length_le hdrop₂ (by omega)
  have hdrop₃ : D.drop (n + span.length + 1) = b ++ r := by
    have := drop_append_right (s := span ++ [58]) (r := b ++ r)
      (by rw [hdrop₂]; simp)
    simp only [List.length_append, List.length_cons, List.length_nil] at this
    have harith : n + (span.length + (0 + 1)) = n + span.length + 1 := by omega
    rwa [harith] at this
  have hchunk := take_chunk_at (k := k) hdrop₃
    (by simp only [List.length_append, List.length_cons, List.length_nil] at hle; omega)
  simp only [BencodeParser.take_bytes, hint]
  have hu := uint_span_digits hspan
  simp only [parse_usize, if_pos (And.intro hu.1 hu.2), hlen]
  rw [hchunk]

lemma next_raw_end {D : List Nat} {n : Nat} {r : List Nat} {pk : Option Token}
    (h : D.drop n = 101 :: r) :
    BencodeParser.next_raw_token ⟨D, n, pk⟩ = .ok (.End, ⟨D, n + 1, pk⟩) := by
  simp [BencodeParser.next_raw_token, take_byte_at h]

lemma next_raw_list {D : List Nat} {n : Nat} {r : List Nat} {pk : Option Token}
    (h : D.drop n = 108 :: r) :
    BencodeParser.next_raw_token ⟨D, n, pk⟩ = .ok (.List, ⟨D, n + 1, pk⟩) := by
  simp [BencodeParser.next_raw_token, take_byte_at h]

lemma next_raw_dict {D : List Nat} {n : Nat} {r : List Nat} {pk : Option Token}
    (h : D.drop n = 100 :: r) :
    BencodeParser.next_raw_token ⟨D, n, pk⟩ = .ok (.Dict, ⟨D, n + 1, pk⟩) := by
  simp [BencodeParser.next_raw_token, take_byte_at h]

lemma next_raw_num {D span r : List Nat} {n : Nat} {pk : Option Token}
    (h : D.drop n = 105 :: span ++ 101 :: r) (hspan : is_int_span span = true) :
    BencodeParser.next_raw_token ⟨D, n, pk⟩ =
      .ok (.Num span, ⟨D, n + span.length + 2, pk⟩) := by
  have h105 : D.drop n = 105 :: (span ++ 101 :: r) := by simpa using h
  have hint := take_int_at (k := pk) (drop_cons_succ h105) hspan (by decide)
  simp only [BencodeParser.next_raw_token, take_byte_at h105]
  norm_num
  rw [hint]
  have : n + 1 + span.length + 1 = n + span.length + 2 := by omega
  rw [this]

lemma next_raw_string {D span b r : List Nat} {n : Nat} {pk : Option Token}
    (h : D.drop n = span ++ 58 :: b ++ r) (hspan : is_uint_span span = true)
    (hlen : digits_val span = b.length) :
    BencodeParser.next_raw_token ⟨D, n, pk⟩ =
      .ok (.String b, ⟨D, n + span.length + 1 + b.length, pk⟩) := by
  match span, hspan with
  | c :: span₂, hspan =>
    have hc : 48 ≤ c ∧ c ≤ 57 := by
      match span₂ with
      | [] => simp only [is_uint_span, is_digit, decide_eq_true_eq] at hspan; omega
      | d :: ds =>
        simp only [is_uint_span, Bool.and_eq_true, decide_eq_true_eq] at hspan; omega
    have h' : D.drop n = c :: (span₂ ++ 58 :: b ++ r) := by simpa using h
    have hbytes := take_bytes_at (k := pk) h hspan hlen
    simp only [BencodeParser.next_raw_token, take_byte_at h']
    rw [if_neg (by omega : ¬c = 101), if_neg (by omega : ¬c = 108),
      if_neg (by omega : ¬c = 100), if_neg (by omega : ¬c = 105), if_pos hc]
    have hself : ({ data := D, offset := n + 1, peeked_token := pk } :
        BencodeParser).offset - 1 = n := by simp
    simp only [hself]
    rw [hbytes]

/-! ## `parse` on each grammatical shape (entry state has no cached token) -/

lemma next_token_none {p : BencodeParser} (h : p.peeked_token = none) :
    p.next_token = p.next_raw_token := by
  simp [BencodeParser.next_token, h]

lemma parse_end {D : List Nat} {n : Nat} {r : List Nat}
    (h : D.drop n = 101 :: r) :
    BencodeParser.parse ⟨D, n, none⟩ = .ok (none, ⟨D, n + 1, none⟩) := by
  simp [BencodeParser.parse, next_token_none, next_raw_end h]

lemma parse_list {D : List Nat} {n : Nat} {r : List Nat}
    (h : D.drop n = 108 :: r) :
    BencodeParser.parse ⟨D, n, none⟩ = .ok (some (.List n), ⟨D, n + 1, none⟩) := by
  simp [BencodeParser.parse, next_token_none, next_raw_list h]

lemma parse_dict {D : List Nat} {n : Nat} {r : List Nat}
    (h : D.drop n = 100 :: r) :
    BencodeParser.parse ⟨D, n, none⟩ = .ok (some (.Dict n), ⟨D, n + 1, none⟩) := by
  simp [BencodeParser.parse, next_token_none, next_raw_dict h]

lemma parse_num {D span r : List Nat} {n : Nat}
    (h : D.drop n = 105 :: span ++ 101 :: r) (hspan : is_int_span span = true) :
    BencodeParser.parse ⟨D, n, none⟩ =
      .ok (some (.Int span), ⟨D, n + span.length + 2, none⟩) := by
  simp [BencodeParser.parse, next_token_none, next_raw_num h hspan]

lemma parse_string {D span b r : List Nat} {n : Nat}
    (h : D.drop n = span ++ 58 :: b ++ r) (hspan : is_uint_span span = true)
    (hlen : digits_val span = b.length) :
    BencodeParser.parse ⟨D, n, none⟩ =
      .ok (some (.Bytes b), ⟨D, n + span.length + 1 + b.length, none⟩) := by
  simp [BencodeParser.parse, next_token_none, next_raw_string h hspan hlen]

end YBencode

namespace YBencode

/-! ## Skip/drain correctness over well-formed encodings -/

/-- A well-formed value occupying `s` is pulled by `parse` (consuming `t`
bytes of token) and fully dropped by `skip_object`, landing exactly at its
end. -/
def SkipVal (s : List Nat) : Prop :=
  ∀ (D : List Nat) (n : Nat) (r : List Nat), D.drop n = s ++ r →
    ∃ h t, 1 ≤ t ∧ t ≤ s.length ∧
      BencodeParser.parse ⟨D, n, none⟩ = .ok (some h, ⟨D, n + t, none⟩) ∧
      ∀ fuel, s.length ≤ fuel →
        skip_object fuel h ⟨D, n + t, none⟩ = .ok ⟨D, n + s.length, none⟩

/-- Draining a list cursor positioned before well-formed items `s` followed by
the terminator lands exactly one past the terminator. -/
def SkipItems (s : List Nat) : Prop :=
  ∀ (D : List Nat) (n : Nat) (r : List Nat) (fuel : Nat),
    D.drop n = s ++ 101 :: r → s.length + 1 ≤ fuel →
    drain_struct fuel true ⟨D, n, none⟩ = .ok ⟨D, n + s.length + 1, none⟩

/-- Same for a dict cursor over well-formed pairs. -/
def SkipPairs (s : List Nat) : Prop :=
  ∀ (D : List Nat) (n : Nat) (r : List Nat) (fuel : Nat),
    D.drop n = s ++ 101 :: r → s.length + 1 ≤ fuel →
    drain_struct fuel false ⟨D, n, none⟩ = .ok ⟨D, n + s.length + 1, none⟩

lemma drain_list_step {fuel : Nat} {p p₁ : BencodeParser} {h : Object}
    (hp : p.parse = .ok (some h, p₁)) :
    drain_struct (fuel + 1) true p =
      match skip_object fuel h p₁ with
      | .error e => .error e
      | .ok p₂ => drain_struct fuel true p₂ := by
  cases h <;> simp [drain_struct, hp, skip_object]

lemma drain_dict_step {fuel : Nat} {p p₁ p₂ : BencodeParser} {k : List Nat} {h : Object}
    (hp : p.parse = .ok (some (.Bytes k), p₁))
    (hv : p₁.parse = .ok (some h, p₂)) :
    drain_struct (fuel + 1) false p =
      match skip_object fuel h p₂ with
      | .error e => .error e
      | .ok p₃ => drain_struct fuel false p₃ := by
  cases h <;> simp [drain_struct, hp, hv, skip_object]

lemma uint_span_len_pos {s : List Nat} (h : is_uint_span s = true) : 1 ≤ s.length := by
  have := (uint_span_digits h).1
  cases s with
  | nil => simp at this
  | cons a l => simp

theorem wf_skip {k : Kind} {s : List Nat} (h : WF k s) :
    match k with
    | .val => SkipVal s
    | .items => SkipItems s
    | .pairs => SkipPairs s := by
  induction h with
  | int span hspan =>
    intro D n r hdrop
    have h' : D.drop n = 105 :: span ++ 101 :: r := by simpa using hdrop
    have hlen : (105 :: span ++ [101]).length = span.length + 2 := by simp
    have hparse : BencodeParser.parse ⟨D, n, none⟩ =
        .ok (some (.Int span), ⟨D, n + (span.length + 2), none⟩) := by
      rw [parse_num h' hspan]
      have : n + span.length + 2 = n + (span.length + 2) := by omega
      rw [this]
    refine ⟨.Int span, span.length + 2, by omega, by omega, hparse, ?_⟩
    intro fuel _
    rw [hlen]
    simp [skip_object]
  | str span b hspan hlen =>
    intro D n r hdrop
    have h' : D.drop n = span ++ 58 :: b ++ r := by simpa using hdrop
    have hlen₂ : (span ++ 58 :: b).length = span.length + 1 + b.length := by
      simp; omega
    have hparse : BencodeParser.parse ⟨D, n, none⟩ =
        .ok (some (.Bytes b), ⟨D, n + (span.length + 1 + b.length), none⟩) := by
      rw [parse_string h' hspan hlen]
      have : n + span.length + 1 + b.length = n + (span.length + 1 + b.length) := by omega
      rw [this]
    refine ⟨.Bytes b, span.length + 1 + b.length, by omega, by omega, hparse, ?_⟩
    intro fuel _
    rw [hlen₂]
    simp [skip_object]
  | list s hitems ih =>
    intro D n r hdrop
    simp only at ih
    have h' : D.drop n = 108 :: (s ++ 101 :: r) := by simpa using hdrop
    have hlen : (108 :: s ++ [101]).length = s.length + 2 := by simp
    refine ⟨.List n, 1, by omega, by omega, parse_list h', ?_⟩
    intro fuel hfuel
    rw [hlen] at hfuel ⊢
    have hdrain := ih D (n + 1) r fuel (drop_cons_succ h') (by omega)
    simp only [skip_object]
    rw [hdrain]
    have : n + 1 + s.length + 1 = n + (s.length + 2) := by omega
    rw [this]
  | dict s hpairs ih =>
    intro D n r hdrop
    simp only at ih
    have h' : D.drop n = 100 :: (s ++ 101 :: r) := by simpa using hdrop
    have hlen : (100 :: s ++ [101]).length = s.length + 2 := by simp
    refine ⟨.Dict n, 1, by omega, by omega, parse_dict h', ?_⟩
    intro fuel hfuel
    rw [hlen] at hfuel ⊢
    have hdrain := ih D (n + 1) r fuel (drop_cons_succ h') (by omega)
    simp only [skip_object]
    rw [hdrain]
    have : n + 1 + s.length + 1 = n + (s.length + 2) := by omega
    rw [this]
  | items_nil =>
    intro D n r fuel hdrop hfuel
    obtain ⟨f, rfl⟩ : ∃ f, fuel = f + 1 := ⟨fuel - 1, by omega⟩
    have h' : D.drop n = 101 :: r := by simpa using hdrop
    simp [drain_struct, parse_end h']
  | items_cons v s hv hs ihv ihs =>
    intro D n r fuel hdrop hfuel
    simp only at ihv ihs
    have h' : D.drop n = v ++ (s ++ 101 :: r) := by simpa using hdrop
    obtain ⟨h, t, ht1, htv, hparse, hskip⟩ := ihv D n (s ++ 101 :: r) h'
    have hlen : (v ++ s).length = v.length + s.length := by simp
    rw [hlen] at hfuel ⊢
    obtain ⟨f, rfl⟩ : ∃ f, fuel = f + 1 := ⟨fuel - 1, by omega⟩
    rw [drain_list_step hparse, hskip f (by omega)]
    show drain_struct f true ⟨D, n + v.length, none⟩ = _
    have hdrop₂ : D.drop (n + v.length) = s ++ 101 :: r := drop_append_right h'
    rw [ihs D (n + v.length) r f hdrop₂ (by omega)]
    have : n + v.length + s.length + 1 = n + (v.length + s.length) + 1 := by omega
    rw [this]
  | pairs_nil =>
    intro D n r fuel hdrop hfuel
    obtain ⟨f, rfl⟩ : ∃ f, fuel = f + 1 := ⟨fuel - 1, by omega⟩
    have h' : D.drop n = 101 :: r := by simpa using hdrop
    simp [drain_struct, parse_end h']
  | pairs_cons span b v s hspan hlen hv hs ihv ihs =>
    intro D n r fuel hdrop hfuel
    simp only at ihv ihs
    have h' : D.drop n = span ++ 58 :: b ++ (v ++ (s ++ 101 :: r)) := by
      simpa [List.append_assoc] using hdrop
    have hdropk : D.drop (n + (span.length + 1 + b.length)) = v ++ (s ++ 101 :: r) := by
      have h'' : D.drop n = (span ++ 58 :: b) ++ (v ++ (s ++ 101 :: r)) := by
        simpa [List.append_assoc] using hdrop
      have hd := drop_append_right h''
      have harith : n + (span ++ 58 :: b).length = n + (span.length + 1 + b.length) := by
        simp; omega
      rwa [harith] at hd
    obtain ⟨h, t, ht1, htv, hparse, hskip⟩ :=
      ihv D (n + (span.length + 1 + b.length)) (s ++ 101 :: r) hdropk
    have hslen : ((span ++ 58 :: b) ++ v ++ s).length =
        span.length + 1 + b.length + v.length + s.length := by
      simp; omega
    rw [hslen] at hfuel ⊢
    have hspanpos : 1 ≤ span.length := uint_span_len_pos hspan
    obtain ⟨f, rfl⟩ : ∃ f, fuel = f + 1 := ⟨fuel - 1, by omega⟩
    have hkey' : BencodeParser.parse ⟨D, n, none⟩ =
        .ok (some (.Bytes b), ⟨D, n + (span.length + 1 + b.length), none⟩) := by
      rw [parse_string h' hspan hlen]
      have : n + span.length + 1 + b.length = n + (span.length + 1 + b.length) := by omega
      rw [this]
    rw [drain_dict_step hkey' hparse, hskip f (by omega)]
    show drain_struct f false ⟨D, n + (span.length + 1 + b.length) + v.length, none⟩ = _
    have hdrops : D.drop (n + (span.length + 1 + b.length) + v.length) = s ++ 101 :: r :=
      drop_append_right hdropk
    rw [ihs D (n + (span.length + 1 + b.length) + v.length) r f hdrops (by omega)]
    have : n + (span.length + 1 + b.length) + v.length + s.length + 1 =
        n + (span.length + 1 + b.length + v.length + s.length) + 1 := by omega
    rw [this]

end YBencode

namespace YBencode

lemma wf_skip_val {s : List Nat} (h : WF .val s) : SkipVal s := wf_skip h

lemma wf_skip_items {s : List Nat} (h : WF .items s) : SkipItems s := wf_skip h

lemma wf_skip_pairs {s : List Nat} (h : WF .pairs s) : SkipPairs s := wf_skip h

lemma slice_of_struct {D s₁ s₂ r : List Nat} {n c : Nat}
    (hdrop : D.drop n = c :: s₁ ++ s₂ ++ 101 :: r) :
    (D.drop n).take (s₁.length + s₂.length + 2) = c :: s₁ ++ s₂ ++ [101] := by
  rw [hdrop]
  have h1 : c :: s₁ ++ s₂ ++ 101 :: r = c :: ((s₁ ++ s₂) ++ 101 :: r) := by simp
  have h2 : s₁.length + s₂.length + 2 = ((s₁ ++ s₂).length + 1) + 1 := by simp
  rw [h1, h2, List.take_succ_cons, List.take_append 1]
  simp

/-- Offset of the list/dict decoder parser after a consumed item prefix
`s₁`, with the remaining region `s₂` well formed: draining lands one past
the structure terminator. -/
lemma drain_partial {D s₁ s₂ r : List Nat} {n fuel : Nat} {b : Bool} {c : Nat}
    (hkind : WF (if b then Kind.items else Kind.pairs) s₂)
    (hdrop : D.drop n = c :: s₁ ++ s₂ ++ 101 :: r)
    (hfuel : s₂.length + 1 ≤ fuel) :
    drain_struct fuel b ⟨D, n + 1 + s₁.length, none⟩ =
      .ok ⟨D, n + s₁.length + s₂.length + 2, none⟩ := by
  have h' : D.drop n = c :: (s₁ ++ (s₂ ++ 101 :: r)) := by simpa using hdrop
  have h₁ : D.drop (n + 1) = s₁ ++ (s₂ ++ 101 :: r) := drop_cons_succ h'
  have h₂ : D.drop (n + 1 + s₁.length) = s₂ ++ 101 :: r := drop_append_right h₁
  cases b with
  | true =>
    have := wf_skip_items (by simpa using hkind) D (n + 1 + s₁.length) r fuel h₂ hfuel
    rw [this]
    have : n + 1 + s₁.length + s₂.length + 1 = n + s₁.length + s₂.length + 2 := by omega
    rw [this]
  | false =>
    have := wf_skip_pairs (by simpa using hkind) D (n + 1 + s₁.length) r fuel h₂ hfuel
    rw [this]
    have : n + 1 + s₁.length + s₂.length + 1 = n + s₁.length + s₂.length + 2 := by omega
    rw [this]

end YBencode

namespace YBencode

/-- ASCII bytes of `d4:infod6:lengthi10eee`. -/
def info_input : List Nat :=
  [100, 52, 58, 105, 110, 102, 111, 100, 54, 58, 108, 101, 110, 103, 116, 104,
   105, 49, 48, 101, 101, 101]

/-- C1: for every well-formed List (resp. Dict) structure in the input —
opening byte `l`/`d` at offset `n`, already-consumed item prefix `s₁`, still
well-formed remainder `s₂`, terminator `e` — converting the cursor to a raw
slice (`TryFrom<…Decoder> for &[u8]`, which forces full consumption first)
returns exactly the backing bytes of the structure from its opening byte
through its terminating `e`, regardless of how much was consumed before the
conversion.  In particular, on `d4:infod6:lengthi10eee` the first `next_pair`
binds key `info` to a dict cursor starting at offset 7, and converting that
cursor returns exactly the bytes `d6:lengthi10ee`. -/
theorem claim_C1 :
    (∀ (D s₁ s₂ r : List Nat) (n fuel : Nat), WF .items s₂ →
      D.drop n = 108 :: s₁ ++ s₂ ++ 101 :: r → s₂.length + 1 ≤ fuel →
      ListDecoder.try_into_bytes fuel
          { parser := ⟨D, n + 1 + s₁.length, none⟩, finished := false, start_point := n } =
        .ok (108 :: s₁ ++ s₂ ++ [101]))
  ∧ (∀ (D s₁ s₂ r : List Nat) (n fuel : Nat), WF .pairs s₂ →
      D.drop n = 100 :: s₁ ++ s₂ ++ 101 :: r → s₂.length + 1 ≤ fuel →
      DictDecoder.try_into_bytes fuel
          { parser := ⟨D, n + 1 + s₁.length, none⟩, finished := false, start_point := n } =
        .ok (100 :: s₁ ++ s₂ ++ [101]))
  ∧ BencodeParser.parse (BencodeParser.new info_input) =
      .ok (some (.Dict 0), ⟨info_input, 1, none⟩)
  ∧ DictDecoder.next_pair 30 (DictDecoder.new ⟨info_input, 1, none⟩) =
      .ok (some ([105, 110, 102, 111], .Dict 7), ⟨⟨info_input, 8, none⟩, false, 0⟩)
  ∧ DictDecoder.try_into_bytes 30 ⟨⟨info_input, 8, none⟩, false, 7⟩ =
      .ok [100, 54, 58, 108, 101, 110, 103, 116, 104, 105, 49, 48, 101, 101] := by
  refine ⟨?_, ?_, by decide, by decide, by decide⟩
  · intro D s₁ s₂ r n fuel hwf hdrop hfuel
    have hdrain := drain_partial (b := true) (c := 108) (by simpa using hwf) hdrop hfuel
    simp only [ListDecoder.try_into_bytes, ListDecoder.consume_all]
    rw [if_neg (by simp)]
    rw [hdrain]
    show Except.ok ((D.drop n).take (n + s₁.length + s₂.length + 2 - n)) = _
    rw [show n + s₁.length + s₂.length + 2 - n = s₁.length + s₂.length + 2 from by omega,
      slice_of_struct hdrop]
  · intro D s₁ s₂ r n fuel hwf hdrop hfuel
    have hdrain := drain_partial (b := false) (c := 100) (by simpa using hwf) hdrop hfuel
    simp only [DictDecoder.try_into_bytes, DictDecoder.consume_all]
    rw [if_neg (by simp)]
    rw [hdrain]
    show Except.ok ((D.drop n).take (n + s₁.length + s₂.length + 2 - n)) = _
    rw [show n + s₁.length + s₂.length + 2 - n = s₁.length + s₂.length + 2 from by omega,
      slice_of_struct hdrop]

/-- Witness for C1: the general list conjunct instantiated on `li1ee` with no
items consumed yet: converting the cursor returns the whole structure. -/
theorem claim_C1_witness :
    ListDecoder.try_into_bytes 5
        { parser := ⟨[108, 105, 49, 101, 101], 1, none⟩, finished := false, start_point := 0 } =
      .ok [108, 105, 49, 101, 101] := by
  have h := claim_C1.1 [108, 105, 49, 101, 101] [] [105, 49, 101] [] 0 5
    (WF.items_cons (105 :: [49] ++ [101]) [] (WF.int [49] (by decide)) WF.items_nil)
    (by decide) (by decide)
  simpa using h

/-- C2: dropping a List/Dict cursor that consumed any prefix of its
items/pairs (its parser sits after consumed bytes `s₁`, the rest `s₂` of the
structure body still well formed) drains everything up to and including the
matching `End`: `consume_all` — the body of the `Drop` impls — succeeds and
leaves the shared parser at exactly one byte past the structure's
terminator with no cached token, so the enclosing cursor's next `parse`
pulls the next sibling value (third conjunct). -/
theorem claim_C2 :
    (∀ (D s₁ s₂ r : List Nat) (n sp fuel : Nat), WF .items s₂ →
      D.drop n = 108 :: s₁ ++ s₂ ++ 101 :: r → s₂.length + 1 ≤ fuel →
      ListDecoder.consume_all fuel
          { parser := ⟨D, n + 1 + s₁.length, none⟩, finished := false, start_point := sp } =
        .ok { parser := ⟨D, n + s₁.length + s₂.length + 2, none⟩, finished := true,
              start_point := sp })
  ∧ (∀ (D s₁ s₂ r : List Nat) (n sp fuel : Nat), WF .pairs s₂ →
      D.drop n = 100 :: s₁ ++ s₂ ++ 101 :: r → s₂.length + 1 ≤ fuel →
      DictDecoder.consume_all fuel
          { parser := ⟨D, n + 1 + s₁.length, none⟩, finished := false, start_point := sp } =
        .ok { parser := ⟨D, n + s₁.length + s₂.length + 2, none⟩, finished := true,
              start_point := sp })
  ∧ (∀ (D v r₂ : List Nat) (m : Nat), WF .val v → D.drop m = v ++ r₂ →
      ∃ hobj t, BencodeParser.parse ⟨D, m, none⟩ = .ok (some hobj, ⟨D, m + t, none⟩)) := by
  refine ⟨?_, ?_, ?_⟩
  · intro D s₁ s₂ r n sp fuel hwf hdrop hfuel
    have hdrain := drain_partial (b := true) (c := 108) (by simpa using hwf) hdrop hfuel
    simp only [ListDecoder.consume_all]
    rw [if_neg (by simp)]
    rw [hdrain]
  · intro D s₁ s₂ r n sp fuel hwf hdrop hfuel
    have hdrain := drain_partial (b := false) (c := 100) (by simpa using hwf) hdrop hfuel
    simp only [DictDecoder.consume_all]
    rw [if_neg (by simp)]
    rw [hdrain]
  · intro D v r₂ m hwf hdropv
    obtain ⟨hobj, t, _, _, hparse, _⟩ := wf_skip_val hwf D m r₂ hdropv
    exact ⟨hobj, t, hparse⟩

/-- Witness for C2: the dict conjunct on `d1:ai0ee` inside `ld1:ai0eei7ee`
after zero pairs were read: the drop drain leaves the parser one past that
dict's terminator, at the sibling integer `i7e`. -/
theorem claim_C2_witness :
    DictDecoder.consume_all 9
        { parser := ⟨[108, 100, 49, 58, 97, 105, 48, 101, 101, 105, 55, 101, 101], 2, none⟩,
          finished := false, start_point := 1 } =
      .ok { parser := ⟨[108, 100, 49, 58, 97, 105, 48, 101, 101, 105, 55, 101, 101], 9, none⟩,
            finished := true, start_point := 1 } := by
  have h := claim_C2.2.1 [108, 100, 49, 58, 97, 105, 48, 101, 101, 105, 55, 101, 101]
    [] ([49] ++ 58 :: [97] ++ (105 :: [48] ++ [101]) ++ []) [105, 55, 101, 101] 1 1 9
    (WF.pairs_cons [49] [97] (105 :: [48] ++ [101]) [] (by decide) (by decide)
      (WF.int [48] (by decide)) WF.pairs_nil)
    (by decide) (by decide)
  simpa using h

/-- C3 counterexample: on `di0ee` the key position holds the integer `i0e`,
and `next_pair` returns `Ok(None)` — silently ending the dictionary with the
cursor marked finished — instead of returning a structural error as the
claim states. -/
theorem claim_C3_counterexample :
    DictDecoder.next_pair 5 (DictDecoder.new ⟨[100, 105, 48, 101, 101], 1, none⟩) =
      .ok (none, { parser := ⟨[100, 105, 48, 101, 101], 4, none⟩, finished := true,
                   start_point := 0 }) := by decide

/-- C3 amended: if `next_pair` pulls a key-position `Object` that is not a
byte string, it does not error; the object is dropped (a structural one is
drained through its terminator — the `skip_object` hypothesis), the cursor
is marked finished, and `Ok(None)` is returned, silently ending the
dictionary. -/
theorem claim_C3 :
    ∀ (fuel : Nat) (d : DictDecoder) (h : Object) (p₁ p₂ : BencodeParser),
      d.finished = false →
      d.parser.parse = .ok (some h, p₁) →
      (∀ b, h ≠ .Bytes b) →
      skip_object fuel h p₁ = .ok p₂ →
      DictDecoder.next_pair fuel d = .ok (none, { d with parser := p₂, finished := true }) := by
  intro fuel d h p₁ p₂ hfin hparse hne hskip
  cases h with
  | Bytes b => exact absurd rfl (hne b)
  | Int s =>
    simp only [skip_object, Except.ok.injEq] at hskip
    subst hskip
    simp [DictDecoder.next_pair, hfin, hparse, skip_object]
  | List sp =>
    simp [DictDecoder.next_pair, hfin, hparse, hskip]
  | Dict sp =>
    simp [DictDecoder.next_pair, hfin, hparse, hskip]

/-- Witness for C3 (amended): on `dlee` the key position holds an (empty)
list; `next_pair` drains it and silently finishes the dictionary. -/
theorem claim_C3_witness :
    DictDecoder.next_pair 5 (DictDecoder.new ⟨[100, 108, 101, 101], 1, none⟩) =
      .ok (none, { parser := ⟨[100, 108, 101, 101], 3, none⟩, finished := true,
                   start_point := 0 }) :=
  claim_C3 5 (DictDecoder.new ⟨[100, 108, 101, 101], 1, none⟩) (.List 1)
    ⟨[100, 108, 101, 101], 2, none⟩ ⟨[100, 108, 101, 101], 3, none⟩
    (by decide) (by decide) (fun b heq => Object.noConfusion heq) (by decide)

/-- C4: the tokenizer's integer scan accepts exactly the spans matching
`-?(0|[1-9][0-9]*)` before the (non-digit) terminator — first conjunct, an
iff characterizing every accepting run of `take_int` — and rejects all
others as grammar errors.  Concretely: `i0e` yields span `0`, `i-5e` yields
`-5`, while `i-0e`, `i007e` and the bare sign `i-e` are rejected as
grammar (`BencodeDecode`) errors. -/
theorem claim_C4 :
    (∀ (D : List Nat) (n : Nat) (pk : Option Token) (term : Nat) (span : List Nat)
        (p₂ : BencodeParser), is_digit term = false →
      (BencodeParser.take_int ⟨D, n, pk⟩ term = .ok (span, p₂) ↔
        ∃ r, D.drop n = span ++ term :: r ∧ is_int_span span = true ∧
          p₂ = ⟨D, n + span.length + 1, pk⟩))
  ∧ BencodeParser.next_raw_token (BencodeParser.new [105, 48, 101]) =
      .ok (.Num [48], ⟨[105, 48, 101], 3, none⟩)
  ∧ BencodeParser.next_raw_token (BencodeParser.new [105, 45, 53, 101]) =
      .ok (.Num [45, 53], ⟨[105, 45, 53, 101], 4, none⟩)
  ∧ BencodeParser.next_raw_token (BencodeParser.new [105, 45, 48, 101]) =
      .error (.BencodeDecode .exceptSign 2)
  ∧ BencodeParser.next_raw_token (BencodeParser.new [105, 48, 48, 55, 101]) =
      .error (.BencodeDecode .expectTerminator 2)
  ∧ BencodeParser.next_raw_token (BencodeParser.new [105, 45, 101]) =
      .error (.BencodeDecode .exceptSign 2) := by
  refine ⟨?_, by decide, by decide, by decide, by decide, by decide⟩
  intro D n pk term span p₂ hterm
  constructor
  · intro h
    exact take_int_sound h
  · rintro ⟨r, hdrop, hspan, rfl⟩
    exact take_int_at hdrop hspan hterm

/-- Witness for C4: the characterization applied to the span `0` before the
terminator `e` in the buffer `0e`. -/
theorem claim_C4_witness :
    BencodeParser.take_int ⟨[48, 101], 0, none⟩ 101 = .ok ([48], ⟨[48, 101], 2, none⟩) :=
  (claim_C4.1 [48, 101] 0 none 101 [48] ⟨[48, 101], 2, none⟩ (by decide)).mpr
    ⟨[], by decide, by decide, by decide⟩

lemma take_int_shape {p q : BencodeParser} {term : Nat} {s : List Nat}
    (h : p.take_int term = .ok (s, q)) : ∃ m, q = { p with offset := m } := by
  simp only [BencodeParser.take_int] at h
  cases hgo : take_int_go term .Start p.offset (p.data.drop p.offset) with
  | error e => rw [hgo] at h; cases h
  | ok c =>
    rw [hgo] at h
    simp only [Except.ok.injEq, Prod.mk.injEq] at h
    exact ⟨c + 1, h.2.symm⟩

lemma take_chunk_shape {p q : BencodeParser} {cnt : Nat} {s : List Nat}
    (h : BencodeParser.take_chunk cnt p = some (s, q)) : ∃ m, q = { p with offset := m } := by
  simp only [BencodeParser.take_chunk] at h
  split at h
  · simp only [Option.some.injEq, Prod.mk.injEq] at h
    exact ⟨p.offset + cnt, h.2.symm⟩
  · cases h

lemma take_bytes_shape {p q : BencodeParser} {s : List Nat}
    (h : p.take_bytes = .ok (s, q)) : ∃ m, q = { p with offset := m } := by
  simp only [BencodeParser.take_bytes] at h
  cases hti : p.take_int 58 with
  | error e => rw [hti] at h; cases h
  | ok sp =>
    obtain ⟨span, p₁⟩ := sp
    rw [hti] at h
    dsimp only at h
    cases hpu : parse_usize span with
    | none => rw [hpu] at h; cases h
    | some len =>
      rw [hpu] at h
      dsimp only at h
      cases htc : BencodeParser.take_chunk len p₁ with
      | none => rw [htc] at h; cases h
      | some cq =>
        obtain ⟨chunk, p₂⟩ := cq
        rw [htc] at h
        dsimp only at h
        simp only [Except.ok.injEq, Prod.mk.injEq] at h
        obtain ⟨m₁, hp₁⟩ := take_int_shape hti
        obtain ⟨m₂, hp₂⟩ := take_chunk_shape htc
        subst hp₁
        exact ⟨m₂, by rw [← h.2, hp₂]⟩

lemma next_raw_shape {p q : BencodeParser} {t : Token}
    (h : p.next_raw_token = .ok (t, q)) : ∃ m, q = { p with offset := m } := by
  simp only [BencodeParser.next_raw_token, BencodeParser.take_byte] at h
  cases hget : p.data[p.offset]? with
  | none => rw [hget] at h; cases h
  | some c =>
    rw [hget] at h
    dsimp only at h
    by_cases h101 : c = 101
    · rw [if_pos h101] at h
      simp only [Except.ok.injEq, Prod.mk.injEq] at h
      exact ⟨p.offset + 1, h.2.symm⟩
    · rw [if_neg h101] at h
      by_cases h108 : c = 108
      · rw [if_pos h108] at h
        simp only [Except.ok.injEq, Prod.mk.injEq] at h
        exact ⟨p.offset + 1, h.2.symm⟩
      · rw [if_neg h108] at h
        by_cases h100 : c = 100
        · rw [if_pos h100] at h
          simp only [Except.ok.injEq, Prod.mk.injEq] at h
          exact ⟨p.offset + 1, h.2.symm⟩
        · rw [if_neg h100] at h
          by_cases h105 : c = 105
          · rw [if_pos h105] at h
            cases hti : BencodeParser.take_int { p with offset := p.offset + 1 } 101 with
            | error e => rw [hti] at h; cases h
            | ok sq =>
              obtain ⟨s, q₁⟩ := sq
              rw [hti] at h
              dsimp only at h
              simp only [Except.ok.injEq, Prod.mk.injEq] at h
              obtain ⟨m, hm⟩ := take_int_shape hti
              exact ⟨m, by rw [← h.2, hm]⟩
          · rw [if_neg h105] at h
            by_cases hdig : 48 ≤ c ∧ c ≤ 57
            · rw [if_pos hdig] at h
              cases htb : BencodeParser.take_bytes
                  { p with offset := p.offset + 1 - 1 } with
              | error e => rw [htb] at h; cases h
              | ok bq =>
                obtain ⟨b, q₁⟩ := bq
                rw [htb] at h
                dsimp only at h
                simp only [Except.ok.injEq, Prod.mk.injEq] at h
                obtain ⟨m, hm⟩ := take_bytes_shape htb
                exact ⟨m, by rw [← h.2, hm]⟩
            · rw [if_neg hdig] at h
              cases h

lemma next_raw_peek {p q : BencodeParser} {t : Token}
    (h : p.next_raw_token = .ok (t, q)) : q.peeked_token = p.peeked_token := by
  obtain ⟨m, rfl⟩ := next_raw_shape h
  rfl

lemma set_peek_none_eq {q : BencodeParser} (h : q.peeked_token = none) :
    { q with peeked_token := none } = q := by
  cases q with
  | mk d o pk => simp at h; rw [h]

/-- C6: `peek_token` does not advance the token stream.  Repeated peeks
return the same token and the same parser state; a peek followed by
`next_token` returns the peeked token and yields exactly the state that a
direct `next_token` (with no intervening peek) would have produced — so any
number of interleaved peeks leaves the `next_token` sequence unchanged.
Peeking fails exactly when the direct `next_token` fails, with the same
error. -/
theorem claim_C6 :
    (∀ (p p₁ : BencodeParser) (t : Token), p.peek_token = .ok (t, p₁) →
      p₁.peek_token = .ok (t, p₁))
  ∧ (∀ (p p₁ : BencodeParser) (t : Token), p.peek_token = .ok (t, p₁) →
      p.next_token = .ok (t, { p₁ with peeked_token := none }) ∧
      p₁.next_token = .ok (t, { p₁ with peeked_token := none }))
  ∧ (∀ (p : BencodeParser) (e : Error), p.peek_token = .error e ↔ p.next_token = .error e) := by
  refine ⟨?_, ?_, ?_⟩
  · intro p p₁ t h
    simp only [BencodeParser.peek_token] at h ⊢
    cases hpk : p.peeked_token with
    | some t₀ =>
      rw [hpk] at h
      simp only [Except.ok.injEq, Prod.mk.injEq] at h
      obtain ⟨rfl, rfl⟩ := h
      rw [hpk]
    | none =>
      rw [hpk] at h
      cases hraw : p.next_raw_token with
      | error e => rw [hraw] at h; cases h
      | ok tq =>
        rw [hraw] at h
        dsimp only at h
        simp only [Except.ok.injEq, Prod.mk.injEq] at h
        obtain ⟨rfl, rfl⟩ := h
        simp
  · intro p p₁ t h
    simp only [BencodeParser.peek_token] at h
    simp only [BencodeParser.next_token]
    cases hpk : p.peeked_token with
    | some t₀ =>
      rw [hpk] at h
      simp only [Except.ok.injEq, Prod.mk.injEq] at h
      obtain ⟨rfl, rfl⟩ := h
      rw [hpk]
      exact ⟨rfl, rfl⟩
    | none =>
      rw [hpk] at h
      cases hraw : p.next_raw_token with
      | error e => rw [hraw] at h; cases h
      | ok tq =>
        obtain ⟨t₂, q⟩ := tq
        rw [hraw] at h
        dsimp only at h
        simp only [Except.ok.injEq, Prod.mk.injEq] at h
        obtain ⟨rfl, rfl⟩ := h
        have hq : q.peeked_token = none := by rw [next_raw_peek hraw, hpk]
        constructor
        · dsimp only
          cases q with
          | mk dq oq pkq =>
            dsimp only at hq
            rw [hq]
        · rfl
  · intro p e
    simp only [BencodeParser.peek_token, BencodeParser.next_token]
    cases hpk : p.peeked_token with
    | some t₀ => simp
    | none =>
      cases hraw : p.next_raw_token with
      | error e₀ => simp
      | ok tq => simp

/-- Witness for C6: a second peek on the post-peek state of `i0e` returns
the cached token and leaves the state unchanged. -/
theorem claim_C6_witness :
    BencodeParser.peek_token ⟨[105, 48, 101], 3, some (.Num [48])⟩ =
      .ok (.Num [48], ⟨[105, 48, 101], 3, some (.Num [48])⟩) :=
  claim_C6.1 (BencodeParser.new [105, 48, 101]) ⟨[105, 48, 101], 3, some (.Num [48])⟩
    (.Num [48]) (by decide)

/-- C7: tokenizer failures are grammar (`BencodeDecode`) errors carrying the
offset at which the failure was detected.  First conjunct: running out of
input at the start of a scan reports the exhausted offset (the input length).
Second conjunct: an invalid control byte reports the scanner's position
after consuming it (`self.offset` at the `format!` site), one past the bad
byte.  Concretely, scanning `i12` (missing terminator) fails with offset
`3`, the input length. -/
theorem claim_C7 :
    (∀ (D : List Nat) (n : Nat) (pk : Option Token), D.length ≤ n →
      BencodeParser.next_raw_token ⟨D, n, pk⟩ =
        .error (.BencodeDecode .eofParseToken n))
  ∧ (∀ (D : List Nat) (n c : Nat) (r : List Nat) (pk : Option Token),
      D.drop n = c :: r → c ≠ 101 → c ≠ 108 → c ≠ 100 → c ≠ 105 →
      is_digit c = false →
      BencodeParser.next_raw_token ⟨D, n, pk⟩ =
        .error (.BencodeDecode .invalidToken (n + 1)))
  ∧ BencodeParser.next_token (BencodeParser.new [105, 49, 50]) =
      .error (.BencodeDecode .eofInt 3)
  ∧ ([105, 49, 50] : List Nat).length = 3 := by
  refine ⟨?_, ?_, by decide, by decide⟩
  · intro D n pk hle
    have hget : D[n]? = none := by
      rw [List.getElem?_eq_none]
      exact hle
    simp [BencodeParser.next_raw_token, BencodeParser.take_byte, hget]
  · intro D n c r pk hdrop h101 h108 h100 h105 hdig
    have hd : ¬(48 ≤ c ∧ c ≤ 57) := by simp [is_digit] at hdig; omega
    simp only [BencodeParser.next_raw_token, take_byte_at hdrop]
    rw [if_neg h101, if_neg h108, if_neg h100, if_neg h105, if_neg hd]

/-- Witness for C7: scanning past the end of the empty input reports offset
0 (the input length), and the invalid byte `x` (0x78) at offset 0 of `x`
reports offset 1. -/
theorem claim_C7_witness :
    BencodeParser.next_raw_token ⟨[], 0, none⟩ =
      .error (.BencodeDecode .eofParseToken 0) ∧
    BencodeParser.next_raw_token ⟨[120], 0, none⟩ =
      .error (.BencodeDecode .invalidToken 1) :=
  ⟨claim_C7.1 [] 0 none (by decide),
   claim_C7.2.1 [120] 0 120 [] none (by decide) (by decide) (by decide) (by decide)
     (by decide) (by decide)⟩

/-! ## Offset monotonicity -/

lemma take_int_go_le {term : Nat} :
    ∀ (l : List Nat) (st : State) (cur e : Nat),
      take_int_go term st cur l = .ok e → cur ≤ e := by
  intro l
  induction l with
  | nil => intro st cur e h; simp [take_int_go] at h
  | cons c rest ih =>
    intro st cur e h
    cases st <;> simp only [take_int_go] at h <;> repeat' split at h
    all_goals first
      | (simp only [Except.ok.injEq] at h; omega)
      | exact absurd h (by simp)
      | exact Nat.le_of_succ_le (ih _ _ _ h)

lemma take_int_mono {p q : BencodeParser} {term : Nat} {s : List Nat}
    (h : p.take_int term = .ok (s, q)) : p.offset ≤ q.offset := by
  simp only [BencodeParser.take_int] at h
  cases hgo : take_int_go term .Start p.offset (p.data.drop p.offset) with
  | error e => rw [hgo] at h; cases h
  | ok c =>
    rw [hgo] at h
    simp only [Except.ok.injEq, Prod.mk.injEq] at h
    have := take_int_go_le _ _ _ _ hgo
    rw [← h.2]
    simp
    omega

lemma take_chunk_mono {p q : BencodeParser} {cnt : Nat} {s : List Nat}
    (h : BencodeParser.take_chunk cnt p = some (s, q)) : p.offset ≤ q.offset := by
  simp only [BencodeParser.take_chunk] at h
  split at h
  · simp only [Option.some.injEq, Prod.mk.injEq] at h
    rw [← h.2]
    simp
  · cases h

lemma take_bytes_mono {p q : BencodeParser} {s : List Nat}
    (h : p.take_bytes = .ok (s, q)) : p.offset ≤ q.offset := by
  simp only [BencodeParser.take_bytes] at h
  cases hti : p.take_int 58 with
  | error e => rw [hti] at h; cases h
  | ok sp =>
    obtain ⟨span, p₁⟩ := sp
    rw [hti] at h
    dsimp only at h
    cases hpu : parse_usize span with
    | none => rw [hpu] at h; cases h
    | some len =>
      rw [hpu] at h
      dsimp only at h
      cases htc : BencodeParser.take_chunk len p₁ with
      | none => rw [htc] at h; cases h
      | some cq =>
        obtain ⟨chunk, p₂⟩ := cq
        rw [htc] at h
        dsimp only at h
        simp only [Except.ok.injEq, Prod.mk.injEq] at h
        rw [← h.2]
        exact le_trans (take_int_mono hti) (take_chunk_mono htc)

lemma next_raw_mono {p q : BencodeParser} {t : Token}
    (h : p.next_raw_token = .ok (t, q)) : p.offset ≤ q.offset := by
  simp only [BencodeParser.next_raw_token, BencodeParser.take_byte] at h
  cases hget : p.data[p.offset]? with
  | none => rw [hget] at h; cases h
  | some c =>
    rw [hget] at h
    dsimp only at h
    by_cases h101 : c = 101
    · rw [if_pos h101] at h
      simp only [Except.ok.injEq, Prod.mk.injEq] at h
      rw [← h.2]
      simp
    · rw [if_neg h101] at h
      by_cases h108 : c = 108
      · rw [if_pos h108] at h
        simp only [Except.ok.injEq, Prod.mk.injEq] at h
        rw [← h.2]
        simp
      · rw [if_neg h108] at h
        by_cases h100 : c = 100
        · rw [if_pos h100] at h
          simp only [Except.ok.injEq, Prod.mk.injEq] at h
          rw [← h.2]
          simp
        · rw [if_neg h100] at h
          by_cases h105 : c = 105
          · rw [if_pos h105] at h
            cases hti : BencodeParser.take_int { p with offset := p.offset + 1 } 101 with
            | error e => rw [hti] at h; cases h
            | ok sq =>
              obtain ⟨s, q₁⟩ := sq
              rw [hti] at h
              dsimp only at h
              simp only [Except.ok.injEq, Prod.mk.injEq] at h
              rw [← h.2]
              have := take_int_mono hti
              simp at this
              omega
          · rw [if_neg h105] at h
            by_cases hdig : 48 ≤ c ∧ c ≤ 57
            · rw [if_pos hdig] at h
              cases htb : BencodeParser.take_bytes
                  { p with offset := p.offset + 1 - 1 } with
              | error e => rw [htb] at h; cases h
              | ok bq =>
                obtain ⟨b, q₁⟩ := bq
                rw [htb] at h
                dsimp only at h
                simp only [Except.ok.injEq, Prod.mk.injEq] at h
                rw [← h.2]
                have := take_bytes_mono htb
                simp at this
                omega
            · rw [if_neg hdig] at h
              cases h

lemma peek_token_mono {p q : BencodeParser} {t : Token}
    (h : p.peek_token = .ok (t, q)) : p.offset ≤ q.offset := by
  simp only [BencodeParser.peek_token] at h
  cases hpk : p.peeked_token with
  | some t₀ =>
    rw [hpk] at h
    simp only [Except.ok.injEq, Prod.mk.injEq] at h
    rw [← h.2]
  | none =>
    rw [hpk] at h
    cases hraw : p.next_raw_token with
    | error e => rw [hraw] at h; cases h
    | ok tq =>
      obtain ⟨t₂, q₂⟩ := tq
      rw [hraw] at h
      dsimp only at h
      simp only [Except.ok.injEq, Prod.mk.injEq] at h
      rw [← h.2]
      simpa using next_raw_mono hraw

lemma next_token_mono {p q : BencodeParser} {t : Token}
    (h : p.next_token = .ok (t, q)) : p.offset ≤ q.offset := by
  simp only [BencodeParser.next_token] at h
  cases hpk : p.peeked_token with
  | some t₀ =>
    rw [hpk] at h
    simp only [Except.ok.injEq, Prod.mk.injEq] at h
    rw [← h.2]
  | none =>
    rw [hpk] at h
    exact next_raw_mono h

lemma parse_mono {p q : BencodeParser} {o : Option Object}
    (h : p.parse = .ok (o, q)) : p.offset ≤ q.offset := by
  simp only [BencodeParser.parse] at h
  cases hnt : p.next_token with
  | error e => rw [hnt] at h; cases h
  | ok tq =>
    obtain ⟨t, q₂⟩ := tq
    rw [hnt] at h
    have hmono := next_token_mono hnt
    cases t <;>
      · dsimp only at h
        simp only [Except.ok.injEq, Prod.mk.injEq] at h
        obtain ⟨-, rfl⟩ := h
        exact hmono

lemma drain_mono : ∀ (fuel : Nat) (b : Bool) (p q : BencodeParser),
    drain_struct fuel b p = .ok q → p.offset ≤ q.offset := by
  intro fuel
  induction fuel with
  | zero => intro b p q h; simp [drain_struct] at h
  | succ f ih =>
    intro b p q h
    cases b
    case true =>
      simp only [drain_struct] at h
      cases hp : p.parse with
      | error e => rw [hp] at h; cases h
      | ok op₁ =>
        obtain ⟨o, p₁⟩ := op₁
        rw [hp] at h
        have h1 := parse_mono hp
        cases o with
        | none =>
          simp only [Except.ok.injEq] at h
          subst h
          exact h1
        | some obj =>
          cases obj with
          | Int s => exact le_trans h1 (ih true p₁ q h)
          | Bytes bb => exact le_trans h1 (ih true p₁ q h)
          | List sp =>
            dsimp only at h
            cases hd : drain_struct f true p₁ with
            | error e => rw [hd] at h; cases h
            | ok p₂ =>
              rw [hd] at h
              dsimp only at h
              exact le_trans h1 (le_trans (ih true p₁ p₂ hd) (ih true p₂ q h))
          | Dict sp =>
            dsimp only at h
            cases hd : drain_struct f false p₁ with
            | error e => rw [hd] at h; cases h
            | ok p₂ =>
              rw [hd] at h
              dsimp only at h
              exact le_trans h1 (le_trans (ih false p₁ p₂ hd) (ih true p₂ q h))
    case false =>
      simp only [drain_struct] at h
      cases hp : p.parse with
      | error e => rw [hp] at h; cases h
      | ok op₁ =>
        obtain ⟨o, p₁⟩ := op₁
        rw [hp] at h
        have h1 := parse_mono hp
        cases o with
        | none =>
          simp only [Except.ok.injEq] at h
          subst h
          exact h1
        | some obj =>
          cases obj with
          | Int s =>
            dsimp only at h
            simp only [Except.ok.injEq] at h
            subst h
            exact h1
          | List sp => exact le_trans h1 (ih true p₁ q h)
          | Dict sp => exact le_trans h1 (ih false p₁ q h)
          | Bytes bb =>
            dsimp only at h
            cases hv : p₁.parse with
            | error e => rw [hv] at h; cases h
            | ok op₂ =>
              obtain ⟨o₂, p₂⟩ := op₂
              rw [hv] at h
              have h2 := parse_mono hv
              cases o₂ with
              | none => dsimp only at h; cases h
              | some obj₂ =>
                cases obj₂ with
                | Int s => exact le_trans h1 (le_trans h2 (ih false p₂ q h))
                | Bytes b2 => exact le_trans h1 (le_trans h2 (ih false p₂ q h))
                | List sp =>
                  dsimp only at h
                  cases hd : drain_struct f true p₂ with
                  | error e => rw [hd] at h; cases h
                  | ok p₃ =>
                    rw [hd] at h
                    dsimp only at h
                    exact le_trans h1 (le_trans h2
                      (le_trans (ih true p₂ p₃ hd) (ih false p₃ q h)))
                | Dict sp =>
                  dsimp only at h
                  cases hd : drain_struct f false p₂ with
                  | error e => rw [hd] at h; cases h
                  | ok p₃ =>
                    rw [hd] at h
                    dsimp only at h
                    exact le_trans h1 (le_trans h2
                      (le_trans (ih false p₂ p₃ hd) (ih false p₃ q h)))

lemma skip_object_mono {fuel : Nat} {obj : Object} {p q : BencodeParser}
    (h : skip_object fuel obj p = .ok q) : p.offset ≤ q.offset := by
  cases obj with
  | Int s => simp only [skip_object, Except.ok.injEq] at h; subst h; exact le_refl _
  | Bytes b => simp only [skip_object, Except.ok.injEq] at h; subst h; exact le_refl _
  | List sp => exact drain_mono fuel true p q h
  | Dict sp => exact drain_mono fuel false p q h

/-- C8: the parser's byte offset never rewinds.  Every public operation that
completes successfully — `peek_token`, `next_token`, `parse`,
`ListDecoder::next_object`, `DictDecoder::next_pair`, and `consume_all`
(the drain behind raw-slice conversion and cursor drop) — leaves the offset
greater than or equal to the offset it started from. -/
theorem claim_C8 :
    (∀ (p q : BencodeParser) (t : Token), p.peek_token = .ok (t, q) →
      p.offset ≤ q.offset)
  ∧ (∀ (p q : BencodeParser) (t : Token), p.next_token = .ok (t, q) →
      p.offset ≤ q.offset)
  ∧ (∀ (p q : BencodeParser) (o : Option Object), p.parse = .ok (o, q) →
      p.offset ≤ q.offset)
  ∧ (∀ (d d' : ListDecoder) (o : Option Object), d.next_object = .ok (o, d') →
      d.parser.offset ≤ d'.parser.offset)
  ∧ (∀ (fuel : Nat) (d d' : DictDecoder) (o : Option (List Nat × Object)),
      d.next_pair fuel = .ok (o, d') → d.parser.offset ≤ d'.parser.offset)
  ∧ (∀ (fuel : Nat) (d d' : ListDecoder), d.consume_all fuel = .ok d' →
      d.parser.offset ≤ d'.parser.offset)
  ∧ (∀ (fuel : Nat) (d d' : DictDecoder), d.consume_all fuel = .ok d' →
      d.parser.offset ≤ d'.parser.offset) := by
  refine ⟨fun p q t h => peek_token_mono h, fun p q t h => next_token_mono h,
    fun p q o h => parse_mono h, ?_, ?_, ?_, ?_⟩
  · intro d d' o h
    simp only [ListDecoder.next_object] at h
    split at h
    · simp only [Except.ok.injEq, Prod.mk.injEq] at h
      obtain ⟨-, rfl⟩ := h
      exact le_refl _
    · cases hp : d.parser.parse with
      | error e => rw [hp] at h; cases h
      | ok op₁ =>
        obtain ⟨o₁, p₁⟩ := op₁
        rw [hp] at h
        have h1 := parse_mono hp
        cases o₁ with
        | none =>
          dsimp only at h
          simp only [Except.ok.injEq, Prod.mk.injEq] at h
          obtain ⟨-, rfl⟩ := h
          exact h1
        | some obj =>
          dsimp only at h
          simp only [Except.ok.injEq, Prod.mk.injEq] at h
          obtain ⟨-, rfl⟩ := h
          exact h1
  · intro fuel d d' o h
    simp only [DictDecoder.next_pair] at h
    split at h
    · simp only [Except.ok.injEq, Prod.mk.injEq] at h
      obtain ⟨-, rfl⟩ := h
      exact le_refl _
    · cases hp : d.parser.parse with
      | error e => rw [hp] at h; cases h
      | ok op₁ =>
        obtain ⟨o₁, p₁⟩ := op₁
        rw [hp] at h
        have h1 := parse_mono hp
        cases o₁ with
        | none =>
          dsimp only at h
          simp only [Except.ok.injEq, Prod.mk.injEq] at h
          obtain ⟨-, rfl⟩ := h
          exact h1
        | some obj =>
          cases obj with
          | Bytes k =>
            dsimp only at h
            cases hv : p₁.parse with
            | error e => rw [hv] at h; cases h
            | ok op₂ =>
              obtain ⟨o₂, p₂⟩ := op₂
              rw [hv] at h
              have h2 := parse_mono hv
              cases o₂ with
              | none => dsimp only at h; cases h
              | some v =>
                dsimp only at h
                simp only [Except.ok.injEq, Prod.mk.injEq] at h
                obtain ⟨-, rfl⟩ := h
                exact le_trans h1 h2
          | Int s =>
            dsimp only at h
            cases hs : skip_object fuel (.Int s) p₁ with
            | error e => rw [hs] at h; cases h
            | ok p₂ =>
              rw [hs] at h
              dsimp only at h
              simp only [Except.ok.injEq, Prod.mk.injEq] at h
              obtain ⟨-, rfl⟩ := h
              exact le_trans h1 (skip_object_mono hs)
          | List sp =>
            dsimp only at h
            cases hs : skip_object fuel (.List sp) p₁ with
            | error e => rw [hs] at h; cases h
            | ok p₂ =>
              rw [hs] at h
              dsimp only at h
              simp only [Except.ok.injEq, Prod.mk.injEq] at h
              obtain ⟨-, rfl⟩ := h
              exact le_trans h1 (skip_object_mono hs)
          | Dict sp =>
            dsimp only at h
            cases hs : skip_object fuel (.Dict sp) p₁ with
            | error e => rw [hs] at h; cases h
            | ok p₂ =>
              rw [hs] at h
              dsimp only at h
              simp only [Except.ok.injEq, Prod.mk.injEq] at h
              obtain ⟨-, rfl⟩ := h
              exact le_trans h1 (skip_object_mono hs)
  · intro fuel d d' h
    simp only [ListDecoder.consume_all] at h
    split at h
    · simp only [Except.ok.injEq] at h
      subst h
      exact le_refl _
    · cases hd : drain_struct fuel true d.parser with
      | error e => rw [hd] at h; cases h
      | ok p₁ =>
        rw [hd] at h
        dsimp only at h
        simp only [Except.ok.injEq] at h
        subst h
        exact drain_mono fuel true d.parser p₁ hd
  · intro fuel d d' h
    simp only [DictDecoder.consume_all] at h
    split at h
    · simp only [Except.ok.injEq] at h
      subst h
      exact le_refl _
    · cases hd : drain_struct fuel false d.parser with
      | error e => rw [hd] at h; cases h
      | ok p₁ =>
        rw [hd] at h
        dsimp only at h
        simp only [Except.ok.injEq] at h
        subst h
        exact drain_mono fuel false d.parser p₁ hd

/-- Witness for C8: `next_token` on `i0e` advances the offset from 0 to 3. -/
theorem claim_C8_witness :
    (BencodeParser.new [105, 48, 101]).offset ≤
      (⟨[105, 48, 101], 3, none⟩ : BencodeParser).offset :=
  claim_C8.2.1 (BencodeParser.new [105, 48, 101]) ⟨[105, 48, 101], 3, none⟩
    (.Num [48]) (by decide)


/-! ## The type-directed decode adapter (de.rs)

`deserialize_any` dispatches on the peeked token to `deserialize_map`,
`deserialize_seq`, `deserialize_i64` or `deserialize_bytes`.  We instantiate
serde's visitor protocol at a self-describing dynamic value `DVal` (map keys
are decoded by `deserialize_any` too, exactly what a generic map visitor's
key seed does), which makes the decode functions below a faithful rendering
of the adapter's control flow: `expect_dict_begin`/`expect_list_begin`,
the `MapAccess`/`SeqAccess` loops that stop on a peeked `End`, and the final
`expect_end`. -/

/-- Dynamic decoded value. -/
inductive DVal where
  | int (n : Int)
  | bytes (b : List Nat)
  | seq (items : List DVal)
  | map (pairs : List (DVal × DVal))

/-- Rust `<iN>::from_str` on a scanned span: optional minus then digits, with
the two's-complement range check (`bound` is 2^63 for i64, 2^31 for i32).
A leading `+` never occurs in spans produced by the tokenizer. -/
def parse_signed (bound : Nat) (s : List Nat) : Option Int :=
  match s with
  | 45 :: rest =>
    if rest ≠ [] ∧ rest.all is_digit ∧ digits_val rest ≤ bound then
      some (-(digits_val rest : Int))
    else none
  | _ =>
    if s ≠ [] ∧ s.all is_digit ∧ digits_val s < bound then
      some ((digits_val s : Int))
    else none

/-- `deserialize_i64` (the `deserialize_integer!` macro at `i64`): pull one
object, require an `Int`, parse its span. -/
def decode_i64 (p : BencodeParser) : Except Error (DVal × BencodeParser) :=
  let cur := p.offset
  match p.parse with
  | .error e => .error e
  | .ok (some (.Int span), p₁) =>
    match parse_signed (2 ^ 63) span with
    | some n => .ok (.int n, p₁)
    | none => .error (.SerdeCustom .invalidInteger cur)
  | .ok (some (.Bytes _), _) => .error (.SerdeCustom .expectInteger cur)
  | .ok (some (.List _), _) => .error (.SerdeCustom .expectInteger cur)
  | .ok (some (.Dict _), _) => .error (.SerdeCustom .expectInteger cur)
  | .ok (none, _) => .error (.SerdeCustom .eofInteger cur)

/-- `deserialize_bytes` (the `deserialize_bytes!` macro): pull one object,
require `Bytes`. -/
def decode_bytes (p : BencodeParser) : Except Error (DVal × BencodeParser) :=
  let cur := p.offset
  match p.parse with
  | .error e => .error e
  | .ok (some (.Bytes b), p₁) => .ok (.bytes b, p₁)
  | .ok (some (.Int _), _) => .error (.SerdeCustom .expectBytes cur)
  | .ok (some (.List _), _) => .error (.SerdeCustom .expectBytes cur)
  | .ok (some (.Dict _), _) => .error (.SerdeCustom .expectBytes cur)
  | .ok (none, _) => .error (.SerdeCustom .eofBytes cur)

mutual
/-- `deserialize_any`: peek, dispatch on the token kind.  The fuel only
bounds the recursion depth of the embedding. -/
def decode_any : Nat → BencodeParser → Except Error (DVal × BencodeParser)
  | 0, _ => .error (.SerdeCustom .fuelExhausted 0)
  | fuel + 1, p =>
    match p.peek_token with
    | .error e => .error e
    | .ok (.Dict, p₁) =>
      match p₁.expect_dict_begin with
      | .error e => .error e
      | .ok p₂ =>
        match decode_map_pairs fuel p₂ with
        | .error e => .error e
        | .ok (kvs, p₃) =>
          match p₃.expect_end with
          | .error e => .error e
          | .ok p₄ => .ok (.map kvs, p₄)
    | .ok (.List, p₁) =>
      match p₁.expect_list_begin with
      | .error e => .error e
      | .ok p₂ =>
        match decode_seq_items fuel p₂ with
        | .error e => .error e
        | .ok (vs, p₃) =>
          match p₃.expect_end with
          | .error e => .error e
          | .ok p₄ => .ok (.seq vs, p₄)
    | .ok (.Num _, p₁) => decode_i64 p₁
    | .ok (.String _, p₁) => decode_bytes p₁
    | .ok (.End, _) => .error (.SerdeCustom .eofAny p.offset)

/-- The `SeqAccess` loop of `deserialize_seq`: peek; on `End` stop (leaving
the terminator cached), else decode one element and continue. -/
def decode_seq_items : Nat → BencodeParser → Except Error (List DVal × BencodeParser)
  | 0, _ => .error (.SerdeCustom .fuelExhausted 0)
  | fuel + 1, p =>
    match p.peek_token with
    | .error e => .error e
    | .ok (.End, p₁) => .ok ([], p₁)
    | .ok (_, p₁) =>
      match decode_any fuel p₁ with
      | .error e => .error e
      | .ok (v, p₂) =>
        match decode_seq_items fuel p₂ with
        | .error e => .error e
        | .ok (vs, p₃) => .ok (v :: vs, p₃)

/-- The `MapAccess` loop of `deserialize_map`: peek; on `End` stop, else
decode a key (via the generic key seed, i.e. `deserialize_any`) and a value,
and continue. -/
def decode_map_pairs : Nat → BencodeParser →
    Except Error (List (DVal × DVal) × BencodeParser)
  | 0, _ => .error (.SerdeCustom .fuelExhausted 0)
  | fuel + 1, p =>
    match p.peek_token with
    | .error e => .error e
    | .ok (.End, p₁) => .ok ([], p₁)
    | .ok (_, p₁) =>
      match decode_any fuel p₁ with
      | .error e => .error e
      | .ok (k, p₂) =>
        match decode_any fuel p₂ with
        | .error e => .error e
        | .ok (v, p₃) =>
          match decode_map_pairs fuel p₃ with
          | .error e => .error e
          | .ok (kvs, p₄) => .ok ((k, v) :: kvs, p₄)
end

/-- `from_bytes` at a dynamic value target: deserialize from a fresh parser. -/
def from_bytes_any (fuel : Nat) (b : List Nat) : Except Error (DVal × BencodeParser) :=
  decode_any fuel (BencodeParser.new b)

end YBencode

namespace YBencode

/-! ## Decode-layer lemmas -/

lemma peek_at_end {D : List Nat} {n : Nat} {r : List Nat} (h : D.drop n = 101 :: r) :
    BencodeParser.peek_token ⟨D, n, none⟩ = .ok (.End, ⟨D, n + 1, some .End⟩) := by
  simp [BencodeParser.peek_token, next_raw_end h]

lemma peek_at_list {D : List Nat} {n : Nat} {r : List Nat} (h : D.drop n = 108 :: r) :
    BencodeParser.peek_token ⟨D, n, none⟩ = .ok (.List, ⟨D, n + 1, some .List⟩) := by
  simp [BencodeParser.peek_token, next_raw_list h]

lemma peek_at_dict {D : List Nat} {n : Nat} {r : List Nat} (h : D.drop n = 100 :: r) :
    BencodeParser.peek_token ⟨D, n, none⟩ = .ok (.Dict, ⟨D, n + 1, some .Dict⟩) := by
  simp [BencodeParser.peek_token, next_raw_dict h]

lemma peek_at_num {D span r : List Nat} {n : Nat}
    (h : D.drop n = 105 :: span ++ 101 :: r) (hspan : is_int_span span = true) :
    BencodeParser.peek_token ⟨D, n, none⟩ =
      .ok (.Num span, ⟨D, n + span.length + 2, some (.Num span)⟩) := by
  simp [BencodeParser.peek_token, next_raw_num h hspan]

lemma peek_at_string {D span b r : List Nat} {n : Nat}
    (h : D.drop n = span ++ 58 :: b ++ r) (hspan : is_uint_span span = true)
    (hlen : digits_val span = b.length) :
    BencodeParser.peek_token ⟨D, n, none⟩ =
      .ok (.String b, ⟨D, n + span.length + 1 + b.length, some (.String b)⟩) := by
  simp [BencodeParser.peek_token, next_raw_string h hspan hlen]

lemma expect_dict_begin_cached {D : List Nat} {m : Nat} :
    BencodeParser.expect_dict_begin ⟨D, m, some .Dict⟩ = .ok ⟨D, m, none⟩ := rfl

lemma expect_list_begin_cached {D : List Nat} {m : Nat} :
    BencodeParser.expect_list_begin ⟨D, m, some .List⟩ = .ok ⟨D, m, none⟩ := rfl

lemma expect_end_cached {D : List Nat} {m : Nat} :
    BencodeParser.expect_end ⟨D, m, some .End⟩ = .ok ⟨D, m, none⟩ := rfl

lemma decode_i64_cached {D span : List Nat} {m : Nat} :
    decode_i64 ⟨D, m, some (.Num span)⟩ =
      match parse_signed (2 ^ 63) span with
      | some v => .ok (.int v, ⟨D, m, none⟩)
      | none => .error (.SerdeCustom .invalidInteger m) := rfl

lemma decode_bytes_cached {D b : List Nat} {m : Nat} :
    decode_bytes ⟨D, m, some (.String b)⟩ = .ok (.bytes b, ⟨D, m, none⟩) := rfl

lemma peek_idem {p p₁ : BencodeParser} {t : Token}
    (h : p.peek_token = .ok (t, p₁)) : p₁.peek_token = .ok (t, p₁) := by
  simp only [BencodeParser.peek_token] at h ⊢
  cases hpk : p.peeked_token with
  | some t₀ =>
    rw [hpk] at h
    simp only [Except.ok.injEq, Prod.mk.injEq] at h
    obtain ⟨rfl, rfl⟩ := h
    rw [hpk]
  | none =>
    rw [hpk] at h
    cases hraw : p.next_raw_token with
    | error e => rw [hraw] at h; cases h
    | ok tq =>
      rw [hraw] at h
      dsimp only at h
      simp only [Except.ok.injEq, Prod.mk.injEq] at h
      obtain ⟨rfl, rfl⟩ := h
      simp

lemma decode_any_peeked {p p₁ : BencodeParser} {t : Token}
    (h : p.peek_token = .ok (t, p₁)) (ht : t ≠ .End) (fuel : Nat) :
    decode_any fuel p₁ = decode_any fuel p := by
  have hidem : p₁.peek_token = .ok (t, p₁) := peek_idem h
  cases fuel with
  | zero => rfl
  | succ f =>
    cases t with
    | End => exact absurd rfl ht
    | List => simp only [decode_any, h, hidem]
    | Dict => simp only [decode_any, h, hidem]
    | Num s => simp only [decode_any, h, hidem]
    | String b => simp only [decode_any, h, hidem]

lemma wf_val_len_pos {v : List Nat} (h : WF .val v) : 1 ≤ v.length := by
  cases h <;> simp only [List.length_cons, List.length_append, List.length_nil] <;> omega

lemma wf_val_peek {v : List Nat} (h : WF .val v) {D r : List Nat} {n : Nat}
    (hdrop : D.drop n = v ++ r) :
    ∃ t p₁, BencodeParser.peek_token ⟨D, n, none⟩ = .ok (t, p₁) ∧ t ≠ .End := by
  cases h with
  | int span hspan =>
    have h' : D.drop n = 105 :: span ++ 101 :: r := by simpa using hdrop
    exact ⟨_, _, peek_at_num h' hspan, by simp⟩
  | str span b hspan hlen =>
    have h' : D.drop n = span ++ 58 :: b ++ r := by simpa using hdrop
    exact ⟨_, _, peek_at_string h' hspan hlen, by simp⟩
  | list s hs =>
    have h' : D.drop n = 108 :: (s ++ 101 :: r) := by simpa using hdrop
    exact ⟨_, _, peek_at_list h', by simp⟩
  | dict s hs =>
    have h' : D.drop n = 100 :: (s ++ 101 :: r) := by simpa using hdrop
    exact ⟨_, _, peek_at_dict h', by simp⟩

/-- `deserialize_any` on a grammatical integer: the result is whatever the
i64 parser makes of the span. -/
lemma decode_any_int {D span r : List Nat} {n f : Nat}
    (h : D.drop n = 105 :: span ++ 101 :: r) (hspan : is_int_span span = true) :
    decode_any (f + 1) ⟨D, n, none⟩ =
      match parse_signed (2 ^ 63) span with
      | some v => .ok (.int v, ⟨D, n + span.length + 2, none⟩)
      | none => .error (.SerdeCustom .invalidInteger (n + span.length + 2)) := by
  simp only [decode_any, peek_at_num h hspan]
  rw [decode_i64_cached]

/-- `deserialize_any` on a grammatical byte string. -/
lemma decode_any_str {D span b r : List Nat} {n f : Nat}
    (h : D.drop n = span ++ 58 :: b ++ r) (hspan : is_uint_span span = true)
    (hlen : digits_val span = b.length) :
    decode_any (f + 1) ⟨D, n, none⟩ =
      .ok (.bytes b, ⟨D, n + span.length + 1 + b.length, none⟩) := by
  simp only [decode_any, peek_at_string h hspan hlen]
  rw [decode_bytes_cached]

end YBencode

namespace YBencode

/-- Decoding a well-formed value region is uniform in its context: either
one fixed `DVal` comes out at every placement (consuming exactly the
region), or the decode fails at every placement. -/
def DecVal (s : List Nat) : Prop :=
  (∃ v : DVal, ∀ (D : List Nat) (n : Nat) (r : List Nat) (fuel : Nat),
      D.drop n = s ++ r → s.length ≤ fuel →
      decode_any fuel ⟨D, n, none⟩ = .ok (v, ⟨D, n + s.length, none⟩))
  ∨ (∀ (D : List Nat) (n : Nat) (r : List Nat) (fuel : Nat),
      D.drop n = s ++ r → s.length ≤ fuel →
      ∃ e, decode_any fuel ⟨D, n, none⟩ = .error e)

/-- Same for the item region of a list (the `SeqAccess` loop, which exits
with the terminator consumed and cached). -/
def DecItems (s : List Nat) : Prop :=
  (∃ vs : List DVal, ∀ (D : List Nat) (n : Nat) (r : List Nat) (fuel : Nat),
      D.drop n = s ++ 101 :: r → s.length + 1 ≤ fuel →
      decode_seq_items fuel ⟨D, n, none⟩ = .ok (vs, ⟨D, n + s.length + 1, some .End⟩))
  ∨ (∀ (D : List Nat) (n : Nat) (r : List Nat) (fuel : Nat),
      D.drop n = s ++ 101 :: r → s.length + 1 ≤ fuel →
      ∃ e, decode_seq_items fuel ⟨D, n, none⟩ = .error e)

/-- Same for the pair region of a dict (the `MapAccess` loop). -/
def DecPairs (s : List Nat) : Prop :=
  (∃ kvs : List (DVal × DVal), ∀ (D : List Nat) (n : Nat) (r : List Nat) (fuel : Nat),
      D.drop n = s ++ 101 :: r → s.length + 1 ≤ fuel →
      decode_map_pairs fuel ⟨D, n, none⟩ = .ok (kvs, ⟨D, n + s.length + 1, some .End⟩))
  ∨ (∀ (D : List Nat) (n : Nat) (r : List Nat) (fuel : Nat),
      D.drop n = s ++ 101 :: r → s.length + 1 ≤ fuel →
      ∃ e, decode_map_pairs fuel ⟨D, n, none⟩ = .error e)

lemma decode_seq_step {p p₁ : BencodeParser} {t : Token} {f : Nat}
    (hpeek : p.peek_token = .ok (t, p₁)) (ht : t ≠ .End) :
    decode_seq_items (f + 1) p =
      match decode_any f p with
      | .error e => .error e
      | .ok (v, p₂) =>
        match decode_seq_items f p₂ with
        | .error e => .error e
        | .ok (vs, p₃) => .ok (v :: vs, p₃) := by
  have hre := decode_any_peeked hpeek ht f
  cases t with
  | End => exact absurd rfl ht
  | List => simp only [decode_seq_items, hpeek, hre]
  | Dict => simp only [decode_seq_items, hpeek, hre]
  | Num s => simp only [decode_seq_items, hpeek, hre]
  | String b => simp only [decode_seq_items, hpeek, hre]

lemma decode_map_step {p p₁ : BencodeParser} {t : Token} {f : Nat}
    (hpeek : p.peek_token = .ok (t, p₁)) (ht : t ≠ .End) :
    decode_map_pairs (f + 1) p =
      match decode_any f p with
      | .error e => .error e
      | .ok (k, p₂) =>
        match decode_any f p₂ with
        | .error e => .error e
        | .ok (v, p₃) =>
          match decode_map_pairs f p₃ with
          | .error e => .error e
          | .ok (kvs, p₄) => .ok ((k, v) :: kvs, p₄) := by
  have hre := decode_any_peeked hpeek ht f
  cases t with
  | End => exact absurd rfl ht
  | List => simp only [decode_map_pairs, hpeek, hre]
  | Dict => simp only [decode_map_pairs, hpeek, hre]
  | Num s => simp only [decode_map_pairs, hpeek, hre]
  | String b => simp only [decode_map_pairs, hpeek, hre]

end YBencode

namespace YBencode

theorem wf_decode {k : Kind} {s : List Nat} (h : WF k s) :
    match k with
    | .val => DecVal s
    | .items => DecItems s
    | .pairs => DecPairs s := by
  induction h with
  | int span hspan =>
    have hlen : (105 :: span ++ [101]).length = span.length + 2 := by simp
    cases hps : parse_signed (2 ^ 63) span with
    | some v =>
      left
      refine ⟨.int v, ?_⟩
      intro D n r fuel hdrop hfuel
      have h' : D.drop n = 105 :: span ++ 101 :: r := by simpa using hdrop
      rw [hlen] at hfuel
      obtain ⟨f, rfl⟩ : ∃ f, fuel = f + 1 := ⟨fuel - 1, by omega⟩
      rw [decode_any_int h' hspan, hps, hlen]
      have : n + span.length + 2 = n + (span.length + 2) := by omega
      rw [this]
    | none =>
      right
      intro D n r fuel hdrop hfuel
      have h' : D.drop n = 105 :: span ++ 101 :: r := by simpa using hdrop
      rw [hlen] at hfuel
      obtain ⟨f, rfl⟩ : ∃ f, fuel = f + 1 := ⟨fuel - 1, by omega⟩
      rw [decode_any_int h' hspan, hps]
      exact ⟨_, rfl⟩
  | str span b hspan hlen =>
    left
    refine ⟨.bytes b, ?_⟩
    intro D n r fuel hdrop hfuel
    have h' : D.drop n = span ++ 58 :: b ++ r := by simpa using hdrop
    have hl : (span ++ 58 :: b).length = span.length + 1 + b.length := by simp; omega
    rw [hl] at hfuel
    have hsp := uint_span_len_pos hspan
    obtain ⟨f, rfl⟩ : ∃ f, fuel = f + 1 := ⟨fuel - 1, by omega⟩
    rw [decode_any_str h' hspan hlen, hl]
    have : n + span.length + 1 + b.length = n + (span.length + 1 + b.length) := by omega
    rw [this]
  | list s hitems ih =>
    simp only at ih
    have hlen : (108 :: s ++ [101]).length = s.length + 2 := by simp
    cases ih with
    | inl hAll =>
      obtain ⟨vs, hvs⟩ := hAll
      left
      refine ⟨.seq vs, ?_⟩
      intro D n r fuel hdrop hfuel
      have h' : D.drop n = 108 :: (s ++ 101 :: r) := by simpa using hdrop
      rw [hlen] at hfuel ⊢
      obtain ⟨f, rfl⟩ : ∃ f, fuel = f + 1 := ⟨fuel - 1, by omega⟩
      have hit := hvs D (n + 1) r f (drop_cons_succ h') (by omega)
      simp only [decode_any, peek_at_list h', expect_list_begin_cached, hit,
        expect_end_cached]
      have : n + 1 + s.length + 1 = n + (s.length + 2) := by omega
      rw [this]
    | inr hErr =>
      right
      intro D n r fuel hdrop hfuel
      have h' : D.drop n = 108 :: (s ++ 101 :: r) := by simpa using hdrop
      rw [hlen] at hfuel
      obtain ⟨f, rfl⟩ : ∃ f, fuel = f + 1 := ⟨fuel - 1, by omega⟩
      obtain ⟨e, he⟩ := hErr D (n + 1) r f (drop_cons_succ h') (by omega)
      refine ⟨e, ?_⟩
      simp only [decode_any, peek_at_list h', expect_list_begin_cached, he]
  | dict s hpairs ih =>
    simp only at ih
    have hlen : (100 :: s ++ [101]).length = s.length + 2 := by simp
    cases ih with
    | inl hAll =>
      obtain ⟨kvs, hkvs⟩ := hAll
      left
      refine ⟨.map kvs, ?_⟩
      intro D n r fuel hdrop hfuel
      have h' : D.drop n = 100 :: (s ++ 101 :: r) := by simpa using hdrop
      rw [hlen] at hfuel ⊢
      obtain ⟨f, rfl⟩ : ∃ f, fuel = f + 1 := ⟨fuel - 1, by omega⟩
      have hit := hkvs D (n + 1) r f (drop_cons_succ h') (by omega)
      simp only [decode_any, peek_at_dict h', expect_dict_begin_cached, hit,
        expect_end_cached]
      have : n + 1 + s.length + 1 = n + (s.length + 2) := by omega
      rw [this]
    | inr hErr =>
      right
      intro D n r fuel hdrop hfuel
      have h' : D.drop n = 100 :: (s ++ 101 :: r) := by simpa using hdrop
      rw [hlen] at hfuel
      obtain ⟨f, rfl⟩ : ∃ f, fuel = f + 1 := ⟨fuel - 1, by omega⟩
      obtain ⟨e, he⟩ := hErr D (n + 1) r f (drop_cons_succ h') (by omega)
      refine ⟨e, ?_⟩
      simp only [decode_any, peek_at_dict h', expect_dict_begin_cached, he]
  | items_nil =>
    left
    refine ⟨[], ?_⟩
    intro D n r fuel hdrop hfuel
    have h' : D.drop n = 101 :: r := by simpa using hdrop
    obtain ⟨f, rfl⟩ : ∃ f, fuel = f + 1 := ⟨fuel - 1, by omega⟩
    simp only [decode_seq_items, peek_at_end h']
    simp
  | items_cons v s hv hs ihv ihs =>
    simp only at ihv ihs
    have hvpos := wf_val_len_pos hv
    have hlen : (v ++ s).length = v.length + s.length := by simp
    cases ihv with
    | inr hvErr =>
      right
      intro D n r fuel hdrop hfuel
      have h' : D.drop n = v ++ (s ++ 101 :: r) := by simpa using hdrop
      rw [hlen] at hfuel
      obtain ⟨f, rfl⟩ : ∃ f, fuel = f + 1 := ⟨fuel - 1, by omega⟩
      obtain ⟨t, p₁, hpeek, htne⟩ := wf_val_peek hv h'
      obtain ⟨e, he⟩ := hvErr D n (s ++ 101 :: r) f h' (by omega)
      refine ⟨e, ?_⟩
      rw [decode_seq_step hpeek htne, he]
    | inl hvAll =>
      obtain ⟨vv, hvv⟩ := hvAll
      cases ihs with
      | inr hsErr =>
        right
        intro D n r fuel hdrop hfuel
        have h' : D.drop n = v ++ (s ++ 101 :: r) := by simpa using hdrop
        rw [hlen] at hfuel
        obtain ⟨f, rfl⟩ : ∃ f, fuel = f + 1 := ⟨fuel - 1, by omega⟩
        obtain ⟨t, p₁, hpeek, htne⟩ := wf_val_peek hv h'
        have hval := hvv D n (s ++ 101 :: r) f h' (by omega)
        obtain ⟨e, he⟩ := hsErr D (n + v.length) r f (drop_append_right h') (by omega)
        refine ⟨e, ?_⟩
        rw [decode_seq_step hpeek htne, hval]
        dsimp only
        rw [he]
      | inl hsAll =>
        obtain ⟨vs, hvs⟩ := hsAll
        left
        refine ⟨vv :: vs, ?_⟩
        intro D n r fuel hdrop hfuel
        have h' : D.drop n = v ++ (s ++ 101 :: r) := by simpa using hdrop
        rw [hlen] at hfuel ⊢
        obtain ⟨f, rfl⟩ : ∃ f, fuel = f + 1 := ⟨fuel - 1, by omega⟩
        obtain ⟨t, p₁, hpeek, htne⟩ := wf_val_peek hv h'
        have hval := hvv D n (s ++ 101 :: r) f h' (by omega)
        have hrest := hvs D (n + v.length) r f (drop_append_right h') (by omega)
        rw [decode_seq_step hpeek htne, hval]
        dsimp only
        rw [hrest]
        dsimp only
        have : n + v.length + s.length + 1 = n + (v.length + s.length) + 1 := by omega
        rw [this]
  | pairs_nil =>
    left
    refine ⟨[], ?_⟩
    intro D n r fuel hdrop hfuel
    have h' : D.drop n = 101 :: r := by simpa using hdrop
    obtain ⟨f, rfl⟩ : ∃ f, fuel = f + 1 := ⟨fuel - 1, by omega⟩
    simp only [decode_map_pairs, peek_at_end h']
    simp
  | pairs_cons span b v s hspan hblen hv hs ihv ihs =>
    simp only at ihv ihs
    have hvpos := wf_val_len_pos hv
    have hsp := uint_span_len_pos hspan
    have hslen : ((span ++ 58 :: b) ++ v ++ s).length =
        span.length + 1 + b.length + v.length + s.length := by simp; omega
    cases ihv with
    | inr hvErr =>
      right
      intro D n r fuel hdrop hfuel
      have h' : D.drop n = span ++ 58 :: b ++ (v ++ (s ++ 101 :: r)) := by
        simpa [List.append_assoc] using hdrop
      have hdropk : D.drop (n + (span.length + 1 + b.length)) = v ++ (s ++ 101 :: r) := by
        have h'' : D.drop n = (span ++ 58 :: b) ++ (v ++ (s ++ 101 :: r)) := by
          simpa [List.append_assoc] using hdrop
        have hd := drop_append_right h''
        have harith : n + (span ++ 58 :: b).length = n + (span.length + 1 + b.length) := by
          simp; omega
        rwa [harith] at hd
      rw [hslen] at hfuel
      obtain ⟨f, rfl⟩ : ∃ f, fuel = f + 1 := ⟨fuel - 1, by omega⟩
      obtain ⟨f₂, rfl⟩ : ∃ f₂, f = f₂ + 1 := ⟨f - 1, by omega⟩
      have hkey : decode_any (f₂ + 1) ⟨D, n, none⟩ =
          .ok (.bytes b, ⟨D, n + (span.length + 1 + b.length), none⟩) := by
        rw [decode_any_str h' hspan hblen]
        have : n + span.length + 1 + b.length = n + (span.length + 1 + b.length) := by omega
        rw [this]
      obtain ⟨e, he⟩ := hvErr D (n + (span.length + 1 + b.length)) (s ++ 101 :: r)
        (f₂ + 1) hdropk (by omega)
      refine ⟨e, ?_⟩
      rw [decode_map_step (peek_at_string h' hspan hblen) (by simp), hkey]
      dsimp only
      rw [he]
    | inl hvAll =>
      obtain ⟨vv, hvv⟩ := hvAll
      cases ihs with
      | inr hsErr =>
        right
        intro D n r fuel hdrop hfuel
        have h' : D.drop n = span ++ 58 :: b ++ (v ++ (s ++ 101 :: r)) := by
          simpa [List.append_assoc] using hdrop
        have hdropk : D.drop (n + (span.length + 1 + b.length)) = v ++ (s ++ 101 :: r) := by
          have h'' : D.drop n = (span ++ 58 :: b) ++ (v ++ (s ++ 101 :: r)) := by
            simpa [List.append_assoc] using hdrop
          have hd := drop_append_right h''
          have harith : n + (span ++ 58 :: b).length =
              n + (span.length + 1 + b.length) := by simp; omega
          rwa [harith] at hd
        rw [hslen] at hfuel
        obtain ⟨f, rfl⟩ : ∃ f, fuel = f + 1 := ⟨fuel - 1, by omega⟩
        obtain ⟨f₂, rfl⟩ : ∃ f₂, f = f₂ + 1 := ⟨f - 1, by omega⟩
        have hkey : decode_any (f₂ + 1) ⟨D, n, none⟩ =
            .ok (.bytes b, ⟨D, n + (span.length + 1 + b.length), none⟩) := by
          rw [decode_any_str h' hspan hblen]
          have : n + span.length + 1 + b.length =
              n + (span.length + 1 + b.length) := by omega
          rw [this]
        have hval := hvv D (n + (span.length + 1 + b.length)) (s ++ 101 :: r)
          (f₂ + 1) hdropk (by omega)
        obtain ⟨e, he⟩ := hsErr D (n + (span.length + 1 + b.length) + v.length) r
          (f₂ + 1) (drop_append_right hdropk) (by omega)
        refine ⟨e, ?_⟩
        rw [decode_map_step (peek_at_string h' hspan hblen) (by simp), hkey]
        dsimp only
        rw [hval]
        dsimp only
        rw [he]
      | inl hsAll =>
        obtain ⟨kvs, hkvs⟩ := hsAll
        left
        refine ⟨(.bytes b, vv) :: kvs, ?_⟩
        intro D n r fuel hdrop hfuel
        have h' : D.drop n = span ++ 58 :: b ++ (v ++ (s ++ 101 :: r)) := by
          simpa [List.append_assoc] using hdrop
        have hdropk : D.drop (n + (span.length + 1 + b.length)) = v ++ (s ++ 101 :: r) := by
          have h'' : D.drop n = (span ++ 58 :: b) ++ (v ++ (s ++ 101 :: r)) := by
            simpa [List.append_assoc] using hdrop
          have hd := drop_append_right h''
          have harith : n + (span ++ 58 :: b).length =
              n + (span.length + 1 + b.length) := by simp; omega
          rwa [harith] at hd
        rw [hslen] at hfuel ⊢
        obtain ⟨f, rfl⟩ : ∃ f, fuel = f + 1 := ⟨fuel - 1, by omega⟩
        obtain ⟨f₂, rfl⟩ : ∃ f₂, f = f₂ + 1 := ⟨f - 1, by omega⟩
        have hkey : decode_any (f₂ + 1) ⟨D, n, none⟩ =
            .ok (.bytes b, ⟨D, n + (span.length + 1 + b.length), none⟩) := by
          rw [decode_any_str h' hspan hblen]
          have : n + span.length + 1 + b.length =
              n + (span.length + 1 + b.length) := by omega
          rw [this]
        have hval := hvv D (n + (span.length + 1 + b.length)) (s ++ 101 :: r)
          (f₂ + 1) hdropk (by omega)
        have hrest := hkvs D (n + (span.length + 1 + b.length) + v.length) r
          (f₂ + 1) (drop_append_right hdropk) (by omega)
        rw [decode_map_step (peek_at_string h' hspan hblen) (by simp), hkey]
        dsimp only
        rw [hval]
        dsimp only
        rw [hrest]
        dsimp only
        have : n + (span.length + 1 + b.length) + v.length + s.length + 1 =
            n + (span.length + 1 + b.length + v.length + s.length) + 1 := by omega
        rw [this]

end YBencode

namespace YBencode

/-- C5: the decode adapter is a function of a structure's canonical bytes
only.  For any well-formed value region `s` placed anywhere in an input
(`D.drop n = s ++ r` — in particular at the placement raw-slice extraction
reads it from), if decoding the extracted bytes `s` as a standalone input
(`from_bytes`) produces a typed value `v`, then decoding in place inside
the parent produces the same `v`, consuming exactly the region. -/
theorem claim_C5 :
    ∀ (s D r : List Nat) (n fuel₁ fuel₂ : Nat) (v : DVal) (q : BencodeParser),
      WF .val s → D.drop n = s ++ r →
      s.length ≤ fuel₁ → s.length ≤ fuel₂ →
      from_bytes_any fuel₁ s = .ok (v, q) →
      decode_any fuel₂ ⟨D, n, none⟩ = .ok (v, ⟨D, n + s.length, none⟩) := by
  intro s D r n fuel₁ fuel₂ v q hwf hdrop h1 h2 hstand
  have hdec := wf_decode hwf
  simp only at hdec
  cases hdec with
  | inl hAll =>
    obtain ⟨v₀, hv₀⟩ := hAll
    have h0 := hv₀ s 0 [] fuel₁ (by simp) h1
    have hcomb : (Except.ok (v₀, (⟨s, 0 + s.length, none⟩ : BencodeParser)) :
        Except Error (DVal × BencodeParser)) = .ok (v, q) := by
      rw [← h0]
      exact hstand
    simp only [Except.ok.injEq, Prod.mk.injEq] at hcomb
    obtain ⟨rfl, -⟩ := hcomb
    exact hv₀ D n r fuel₂ hdrop h2
  | inr hErr =>
    obtain ⟨e, he⟩ := hErr s 0 [] fuel₁ (by simp) h1
    rw [show from_bytes_any fuel₁ s = decode_any fuel₁ ⟨s, 0, none⟩ from rfl, he] at hstand
    cases hstand

/-- Witness for C5: the sub-dict `d6:lengthi10ee` of `d4:infod6:lengthi10eee`
decodes in place (at offset 7) to the same map value that a standalone decode
of the extracted bytes produces. -/
theorem claim_C5_witness :
    decode_any 30 ⟨info_input, 7, none⟩ =
      .ok (.map [(.bytes [108, 101, 110, 103, 116, 104], .int 10)],
        ⟨info_input, 7 + ([100, 54, 58, 108, 101, 110, 103, 116, 104, 105, 49, 48, 101,
          101] : List Nat).length, none⟩) :=
  claim_C5 [100, 54, 58, 108, 101, 110, 103, 116, 104, 105, 49, 48, 101, 101]
    info_input [101] 7 30 30
    (.map [(.bytes [108, 101, 110, 103, 116, 104], .int 10)])
    ⟨[100, 54, 58, 108, 101, 110, 103, 116, 104, 105, 49, 48, 101, 101], 14, none⟩
    (WF.dict (([54] ++ 58 :: [108, 101, 110, 103, 116, 104]) ++
        (105 :: [49, 48] ++ [101]) ++ [])
      (WF.pairs_cons [54] [108, 101, 110, 103, 116, 104] (105 :: [49, 48] ++ [101]) []
        (by decide) (by decide) (WF.int [49, 48] (by decide)) WF.pairs_nil))
    (by decide) (by decide) (by decide) (by rfl)


/-- The model tagged union from the de.rs tests: `enum Enum { Unit, Int(i32) }`
(restricted to the two variants the claim exercises). -/
inductive EnumVal where
  | Unit
  | Int (n : Int)
deriving DecidableEq

/-- `deserialize_enum` (de.rs) specialized to the model enum, following the
serde-derive control flow: peek; on `Dict` consume it and read the variant
name via `deserialize_identifier` (a byte string, UTF-8-checked), then the
variant's payload (`Int` is a newtype variant: `deserialize_i32` followed by
`expect_end`; `Unit` is a unit variant, which consumes nothing further); on
a `ByteString` token consume it and treat it as a bare variant name with no
payload; on any other token fail with a shape error without consuming it
(the token stays cached from the peek).  Invalid UTF-8 and unknown variant
names both map to `badVariant` (both are `SerdeCustom` errors in Rust). -/
def deserialize_enum_model (p : BencodeParser) : Except Error (EnumVal × BencodeParser) :=
  let cur := p.offset
  match p.peek_token with
  | .error e => .error e
  | .ok (.Dict, p₁) =>
    match p₁.expect_dict_begin with
    | .error e => .error e
    | .ok p₂ =>
      let curId := p₂.offset
      match p₂.parse with
      | .error e => .error e
      | .ok (some (.Bytes name), p₃) =>
        if name = [85, 110, 105, 116] then
          .ok (.Unit, p₃)
        else if name = [73, 110, 116] then
          let curInt := p₃.offset
          match p₃.parse with
          | .error e => .error e
          | .ok (some (.Int span), p₄) =>
            match parse_signed (2 ^ 31) span with
            | some m =>
              match p₄.expect_end with
              | .error e => .error e
              | .ok p₅ => .ok (.Int m, p₅)
            | none => .error (.SerdeCustom .invalidInteger curInt)
          | .ok (some (.Bytes _), _) => .error (.SerdeCustom .expectInteger curInt)
          | .ok (some (.List _), _) => .error (.SerdeCustom .expectInteger curInt)
          | .ok (some (.Dict _), _) => .error (.SerdeCustom .expectInteger curInt)
          | .ok (none, _) => .error (.SerdeCustom .eofInteger curInt)
        else .error (.SerdeCustom .badVariant curId)
      | .ok (some (.Int _), _) => .error (.SerdeCustom .expectIdentifier curId)
      | .ok (some (.List _), _) => .error (.SerdeCustom .expectIdentifier curId)
      | .ok (some (.Dict _), _) => .error (.SerdeCustom .expectIdentifier curId)
      | .ok (none, _) => .error (.SerdeCustom .eofIdentifier curId)
  | .ok (.String bytes, p₁) =>
    match p₁.next_token with
    | .error e => .error e
    | .ok (_, p₂) =>
      if bytes = [85, 110, 105, 116] then .ok (.Unit, p₂)
      else .error (.SerdeCustom .badVariant cur)
  | .ok (.Num _, _) => .error (.SerdeCustom .expectEnumShape cur)
  | .ok (.List, _) => .error (.SerdeCustom .expectEnumShape cur)
  | .ok (.End, _) => .error (.SerdeCustom .expectEnumShape cur)

/-- C9: decoding a tagged-union target: the bare byte string `4:Unit` is
consumed and decodes to the unit variant `Unit`; the single-key dict
`d3:Inti13ee` decodes to variant `Int` carrying `13` with the dict's
closing terminator consumed (final offset 11 = the whole input, no cached
token); and when the peeked token is an integer, a list-begin, or an end
token, `deserialize_enum` fails with a shape-mismatch (`SerdeCustom`) error
carrying the offset before the peek — the non-matching token is only
peeked, never consumed. -/
theorem claim_C9 :
    deserialize_enum_model (BencodeParser.new [52, 58, 85, 110, 105, 116]) =
      .ok (.Unit, ⟨[52, 58, 85, 110, 105, 116], 6, none⟩)
  ∧ deserialize_enum_model
      (BencodeParser.new [100, 51, 58, 73, 110, 116, 105, 49, 51, 101, 101]) =
      .ok (.Int 13, ⟨[100, 51, 58, 73, 110, 116, 105, 49, 51, 101, 101], 11, none⟩)
  ∧ (∀ (p p₁ : BencodeParser) (t : Token), p.peek_token = .ok (t, p₁) →
      (t = .End ∨ (∃ s, t = .Num s) ∨ t = .List) →
      deserialize_enum_model p = .error (.SerdeCustom .expectEnumShape p.offset)) := by
  refine ⟨by decide, by decide, ?_⟩
  intro p p₁ t hpeek hshape
  rcases hshape with rfl | ⟨s, rfl⟩ | rfl <;>
    simp only [deserialize_enum_model, hpeek]

/-- Witness for C9: an integer in enum position (`i5e`) is rejected with a
shape error at the starting offset. -/
theorem claim_C9_witness :
    deserialize_enum_model (BencodeParser.new [105, 53, 101]) =
      .error (.SerdeCustom .expectEnumShape 0) :=
  claim_C9.2.2 (BencodeParser.new [105, 53, 101])
    ⟨[105, 53, 101], 3, some (.Num [53])⟩ (.Num [53]) (by decide)
    (Or.inr (Or.inl ⟨[53], rfl⟩))

/-- `deserialize_unit` / `deserialize_unit_struct` (de.rs): expect the two
tokens `l` `e` (the encoding of an empty list), then produce the unit value. -/
def deserialize_unit (p : BencodeParser) : Except Error (Unit × BencodeParser) :=
  match p.expect_empty_list with
  | .error e => .error e
  | .ok p₁ => .ok ((), p₁)

/-- C10: decoding a unit or unit-struct target succeeds exactly when the next
two tokens are `ListBegin` followed by `End` (the bytes `le`); on success
both tokens are consumed and the parser ends in the state after the `End`
token; any other token at either position (or a tokenizer failure) yields an
error. -/
theorem claim_C10 :
    ∀ (p q : BencodeParser),
      deserialize_unit p = .ok ((), q) ↔
        ∃ p₁, p.next_token = .ok (.List, p₁) ∧ p₁.next_token = .ok (.End, q) := by
  intro p q
  constructor
  · intro h
    simp only [deserialize_unit, BencodeParser.expect_empty_list,
      BencodeParser.expect_list_begin, BencodeParser.expect_end] at h
    cases hnt : p.next_token with
    | error e => rw [hnt] at h; cases h
    | ok tp =>
      obtain ⟨t, p₁⟩ := tp
      rw [hnt] at h
      cases t with
      | List =>
        dsimp only at h
        cases hnt₂ : p₁.next_token with
        | error e => rw [hnt₂] at h; cases h
        | ok tp₂ =>
          obtain ⟨t₂, p₂⟩ := tp₂
          rw [hnt₂] at h
          cases t₂ with
          | End =>
            dsimp only at h
            simp only [Except.ok.injEq, Prod.mk.injEq] at h
            obtain ⟨-, rfl⟩ := h
            exact ⟨p₁, rfl, hnt₂⟩
          | List => cases h
          | Dict => cases h
          | Num s => cases h
          | String b => cases h
      | Dict => cases h
      | Num s => cases h
      | String b => cases h
      | End => cases h
  · rintro ⟨p₁, h1, h2⟩
    simp only [deserialize_unit, BencodeParser.expect_empty_list,
      BencodeParser.expect_list_begin, BencodeParser.expect_end, h1, h2]

/-- Witness for C10: on the bytes `le` the unit decode succeeds, consuming
both tokens. -/
theorem claim_C10_witness :
    deserialize_unit (BencodeParser.new [108, 101]) =
      .ok ((), ⟨[108, 101], 2, none⟩) :=
  (claim_C10 (BencodeParser.new [108, 101]) ⟨[108, 101], 2, none⟩).mpr
    ⟨⟨[108, 101], 1, none⟩, by decide, by decide⟩

end YBencode
